import Mathlib

/-!
# goog.vec.vec2d — a verification development

`src/closure/goog/vec/vec2d.js` operates on two-element `Float64Array`s.
The development has three layers:

* `Double`: the values a `Float64Array` element (a JavaScript Number) can
  take, with IEEE 754 binary64 arithmetic (round to nearest, ties to even);
* `Heap`: the store of `Float64Array(2)` objects, addressed by reference, so
  that a call can be given the same object as input and as output;
* `goog.vec.vec2d`: the functions of the source file, statement by statement.
-/

set_option exponentiation.threshold 5000
set_option maxRecDepth 100000

/-! ## Binary64 numbers -/

/-- Number of binary digits of `n`, with `fuel` an upper bound on it. -/
def bitLenAux : Nat → Nat → Nat
  | 0, _ => 0
  | fuel + 1, n => if n = 0 then 0 else bitLenAux fuel (n / 2) + 1

/-- Number of binary digits of `n` (`0` for `0`). -/
def bitLen (n : Nat) : Nat := bitLenAux n n

/-- Digit-by-digit integer square root: `r` is the root found so far, the
first argument is the number of binary digits still to decide. -/
def isqrtAux : Nat → Nat → Nat → Nat
  | 0, _, r => r
  | i + 1, n, r =>
    if (r + 2 ^ i) * (r + 2 ^ i) ≤ n then isqrtAux i n (r + 2 ^ i) else isqrtAux i n r

/-- Integer square root (the floor of the real square root). -/
def isqrt (n : Nat) : Nat := isqrtAux (bitLen n / 2 + 1) n 0

/-- A JavaScript Number. A finite number is kept as a sign and a magnitude
in units of `2^-1074` (the smallest positive binary64 number): `fin neg n`
is `(-1)^neg * n * 2^-1074`. Both zeros are finite numbers of magnitude 0. -/
inductive Double where
  | nan : Double
  | inf (neg : Bool) : Double
  | fin (neg : Bool) (n : Nat) : Double
  deriving DecidableEq, Repr

namespace Double

/-- Exponent of `2^-1074` that carries the unit: `1.0` is `fin false (2^1074)`. -/
def unit : Nat := 2 ^ 1074

/-- Magnitudes at or above this bound overflow to infinity (`2^1024` in
units of `2^-1074`). -/
def limit : Nat := 2 ^ 2098

/-- A magnitude is representable when it has at most 53 significant binary
digits and is below the overflow bound. -/
def Rep (n : Nat) : Prop := n % 2 ^ (bitLen n - 53) = 0 ∧ n < limit

instance (n : Nat) : Decidable (Rep n) := by unfold Rep; infer_instance

/-- The values a binary64 number can take. -/
def Valid : Double → Prop
  | fin _ n => Rep n
  | _ => True

instance (x : Double) : Decidable (Valid x) := by
  cases x <;> unfold Valid <;> infer_instance

/-- Round the positive rational `num / den` (in units of `2^-1074`) to 53
significant binary digits, to nearest, ties to even, with no bound on the
exponent. Below `2^53` units the spacing is one unit (subnormal numbers and the
first binade of normal ones). -/
def roundScaled (num den : Nat) : Nat :=
  let k := bitLen (num / den) - 53
  let d := den * 2 ^ k
  let hi := num / d
  let rem := num % d
  let up := decide (d < 2 * rem) || (2 * rem == d && hi % 2 == 1)
  (if up then hi + 1 else hi) * 2 ^ k

/-- The binary64 number nearest to `(-1)^neg * num / den` units. -/
def ofScaled (neg : Bool) (num den : Nat) : Double :=
  let n := roundScaled num den
  if n < limit then fin neg n else inf neg

/-- The Number denoted by a non-negative integer literal. -/
def ofNat (n : Nat) : Double := ofScaled false (n * unit) 1

/-- The Number nearest to the fraction `p / q`, negated when `neg`. -/
def ofRatio (neg : Bool) (p q : Nat) : Double := ofScaled neg (p * unit) q

/-- The literal `0`. -/
def zero : Double := fin false 0

/-- The literal `1`. -/
def one : Double := fin false unit

/-- Unary minus. -/
def neg : Double → Double
  | nan => nan
  | inf s => inf (!s)
  | fin s n => fin (!s) n

/-- The operator `+` on Numbers. -/
def add : Double → Double → Double
  | nan, _ => nan
  | _, nan => nan
  | inf s, inf t => if s = t then inf s else nan
  | inf s, fin _ _ => inf s
  | fin _ _, inf t => inf t
  | fin s n, fin t m =>
    if s = t then ofScaled s (n + m) 1
    else if m < n then ofScaled s (n - m) 1
    else if n < m then ofScaled t (m - n) 1
    else fin false 0

/-- The operator `-` on Numbers: `x - y` is `x + (-y)`. -/
def sub (x y : Double) : Double := add x (neg y)

/-- The operator `*` on Numbers. -/
def mul : Double → Double → Double
  | nan, _ => nan
  | _, nan => nan
  | inf s, inf t => inf (xor s t)
  | inf s, fin t m => if m = 0 then nan else inf (xor s t)
  | fin s n, inf t => if n = 0 then nan else inf (xor s t)
  | fin s n, fin t m => ofScaled (xor s t) (n * m) unit

/-- The operator `/` on Numbers. -/
def div : Double → Double → Double
  | nan, _ => nan
  | _, nan => nan
  | inf _, inf _ => nan
  | inf s, fin t _ => inf (xor s t)
  | fin s _, inf t => fin (xor s t) 0
  | fin s n, fin t m =>
    if m = 0 then (if n = 0 then nan else inf (xor s t))
    else ofScaled (xor s t) (n * unit) m

/-- `Math.sqrt`. The real root of `n` units is `sqrt (n * 2^1074)` units. -/
def sqrt : Double → Double
  | nan => nan
  | inf s => if s then nan else inf false
  | fin s n =>
    if n = 0 then fin s 0
    else if s then nan
    else
      let a := n * unit
      let r := isqrt a
      let k := bitLen r - 53
      let hi := r / 2 ^ k
      let mid := (2 * hi + 1) * (2 * hi + 1) * 4 ^ k
      let up := decide (mid < 4 * a) || (mid == 4 * a && hi % 2 == 1)
      fin false ((if up then hi + 1 else hi) * 2 ^ k)

/-- The operator `==` on Numbers: NaN equals nothing, the two zeros are equal. -/
def eq : Double → Double → Bool
  | nan, _ => false
  | _, nan => false
  | inf s, inf t => s == t
  | inf _, fin _ _ => false
  | fin _ _, inf _ => false
  | fin s n, fin t m => n == m && (s == t || n == 0)

/-- The conversion `ToBoolean` of a Number, as in `if (d)`: false for the
zeros and NaN. -/
def truthy : Double → Bool
  | nan => false
  | inf _ => true
  | fin _ n => n != 0

/-- A Number that `isFinite` accepts. -/
def isFinite : Double → Bool
  | fin _ _ => true
  | _ => false

/-- The value of a finite Number as a signed count of units of `2^-1074`
(`0` for the values that are not finite). -/
def units : Double → Int
  | fin s n => if s then -(n : Int) else (n : Int)
  | _ => 0

/-- The Number nearest to the signed count of units `z`; an exact zero takes
the sign `zneg`. -/
def ofSigned (zneg : Bool) (z : Int) : Double :=
  if z = 0 then fin zneg 0 else ofScaled (decide (z < 0)) z.natAbs 1

/-- The sum of two finite Numbers is a binary64 number: `+` does not round it. -/
def AddExact (x y : Double) : Prop :=
  x.isFinite = true ∧ y.isFinite = true ∧ Rep (units x + units y).natAbs

instance (x y : Double) : Decidable (AddExact x y) := by unfold AddExact; infer_instance

/-- The difference of two finite Numbers is a binary64 number: `-` does not
round it. -/
def SubExact (x y : Double) : Prop :=
  x.isFinite = true ∧ y.isFinite = true ∧ Rep (units x - units y).natAbs

instance (x y : Double) : Decidable (SubExact x y) := by unfold SubExact; infer_instance

end Double

/-! ## The store of `Float64Array(2)` objects -/

/-- A `Float64Array` of length 2, as `new Float64Array(2)` makes it. The
length of a typed array is fixed, so its two elements are all it holds. -/
structure Float64Array where
  e0 : Double
  e1 : Double
  deriving DecidableEq, Repr

namespace Float64Array

/-- The property `length`. -/
def length (_ : Float64Array) : Nat := 2

/-- The element read `v[i]`. -/
def get (v : Float64Array) (i : Fin 2) : Double :=
  if i = 0 then v.e0 else v.e1

/-- The element write `v[i] = x`. -/
def set (v : Float64Array) (i : Fin 2) (x : Double) : Float64Array :=
  if i = 0 then { v with e0 := x } else { v with e1 := x }

end Float64Array

/-- A reference to an object of the store. Two parameters alias when they
are the same reference. -/
abbrev Ref := Nat

/-- The store: the object behind every reference, and the next reference
`new` hands out. -/
structure Heap where
  obj : Ref → Float64Array
  next : Ref

namespace Heap

/-- A store whose objects are all zero-filled. -/
def empty : Heap := { obj := fun _ => ⟨Double.zero, Double.zero⟩, next := 0 }

/-- The read `r[i]`. -/
def read (h : Heap) (r : Ref) (i : Fin 2) : Double := (h.obj r).get i

/-- The write `r[i] = x`: only the object behind `r` changes. -/
def write (h : Heap) (r : Ref) (i : Fin 2) (x : Double) : Heap :=
  { h with obj := fun p => if p = r then (h.obj p).set i x else h.obj p }

/-- The expression `new Float64Array(2)`: a fresh zero-filled object. -/
def alloc (h : Heap) : Heap × Ref :=
  ({ obj := fun p => if p = h.next then ⟨Double.zero, Double.zero⟩ else h.obj p,
     next := h.next + 1 }, h.next)

end Heap

/-- A `Float32Array` of length 2 (a vec2f). It is only read here; an element
read gives a Number, the widening from single to double precision being
exact. -/
structure Float32Array where
  e0 : Double
  e1 : Double
  deriving DecidableEq, Repr

/-- The element read `v[i]` of a `Float32Array`. -/
def Float32Array.get (v : Float32Array) (i : Fin 2) : Double :=
  if i = 0 then v.e0 else v.e1

/-- An `Array.<number>` of any length, read only. -/
abbrev NumberArray := List Double

/-- The element read `src[i]` of an array stored into a `Float64Array`: past
the end of the array the read gives `undefined`, which is stored as NaN. -/
def NumberArray.stored (src : NumberArray) (i : Nat) : Double :=
  match src.get? i with
  | some x => x
  | none => Double.nan

/-! ## The functions of `vec2d.js`

Every function takes the store and the references it is called with, and
returns the store it leaves; a function that returns a vector returns its
reference. -/

namespace goog.vec.vec2d

open Double

/-- `goog.vec.vec2d.create`. -/
def create (h : Heap) : Heap × Ref := h.alloc

/-- `goog.vec.vec2d.setFromValues`. -/
def setFromValues (h : Heap) (vec : Ref) (v0 v1 : Double) : Heap × Ref :=
  let h := h.write vec 0 v0
  let h := h.write vec 1 v1
  (h, vec)

/-- `goog.vec.vec2d.setFromVec2d`. -/
def setFromVec2d (h : Heap) (vec src : Ref) : Heap × Ref :=
  let h := h.write vec 0 (h.read src 0)
  let h := h.write vec 1 (h.read src 1)
  (h, vec)

/-- `goog.vec.vec2d.setFromVec2f`. -/
def setFromVec2f (h : Heap) (vec : Ref) (src : Float32Array) : Heap × Ref :=
  let h := h.write vec 0 (src.get 0)
  let h := h.write vec 1 (src.get 1)
  (h, vec)

/-- `goog.vec.vec2d.setFromArray`. -/
def setFromArray (h : Heap) (vec : Ref) (src : NumberArray) : Heap × Ref :=
  let h := h.write vec 0 (src.stored 0)
  let h := h.write vec 1 (src.stored 1)
  (h, vec)

/-- `goog.vec.vec2d.add`. -/
def add (h : Heap) (vec0 vec1 resultVec : Ref) : Heap × Ref :=
  let h := h.write resultVec 0 (Double.add (h.read vec0 0) (h.read vec1 0))
  let h := h.write resultVec 1 (Double.add (h.read vec0 1) (h.read vec1 1))
  (h, resultVec)

/-- `goog.vec.vec2d.subtract`. -/
def subtract (h : Heap) (vec0 vec1 resultVec : Ref) : Heap × Ref :=
  let h := h.write resultVec 0 (Double.sub (h.read vec0 0) (h.read vec1 0))
  let h := h.write resultVec 1 (Double.sub (h.read vec0 1) (h.read vec1 1))
  (h, resultVec)

/-- `goog.vec.vec2d.negate`. -/
def negate (h : Heap) (vec0 resultVec : Ref) : Heap × Ref :=
  let h := h.write resultVec 0 (Double.neg (h.read vec0 0))
  let h := h.write resultVec 1 (Double.neg (h.read vec0 1))
  (h, resultVec)

/-- `goog.vec.vec2d.scale`. -/
def scale (h : Heap) (vec0 : Ref) (scalar : Double) (resultVec : Ref) : Heap × Ref :=
  let h := h.write resultVec 0 (Double.mul (h.read vec0 0) scalar)
  let h := h.write resultVec 1 (Double.mul (h.read vec0 1) scalar)
  (h, resultVec)

/-- `goog.vec.vec2d.magnitudeSquared`. -/
def magnitudeSquared (h : Heap) (vec0 : Ref) : Double :=
  let x := h.read vec0 0
  let y := h.read vec0 1
  Double.add (Double.mul x x) (Double.mul y y)

/-- `goog.vec.vec2d.magnitude`. -/
def magnitude (h : Heap) (vec0 : Ref) : Double :=
  let x := h.read vec0 0
  let y := h.read vec0 1
  Double.sqrt (Double.add (Double.mul x x) (Double.mul y y))

/-- `goog.vec.vec2d.normalize`. -/
def normalize (h : Heap) (vec0 resultVec : Ref) : Heap × Ref :=
  let ilen := Double.div one (magnitude h vec0)
  let h := h.write resultVec 0 (Double.mul (h.read vec0 0) ilen)
  let h := h.write resultVec 1 (Double.mul (h.read vec0 1) ilen)
  (h, resultVec)

/-- `goog.vec.vec2d.dot`. -/
def dot (h : Heap) (vec0 vec1 : Ref) : Double :=
  Double.add (Double.mul (h.read vec0 0) (h.read vec1 0))
    (Double.mul (h.read vec0 1) (h.read vec1 1))

/-- `goog.vec.vec2d.distanceSquared`. -/
def distanceSquared (h : Heap) (vec0 vec1 : Ref) : Double :=
  let x := Double.sub (h.read vec0 0) (h.read vec1 0)
  let y := Double.sub (h.read vec0 1) (h.read vec1 1)
  Double.add (Double.mul x x) (Double.mul y y)

/-- `goog.vec.vec2d.distance`. -/
def distance (h : Heap) (vec0 vec1 : Ref) : Double :=
  Double.sqrt (distanceSquared h vec0 vec1)

/-- `goog.vec.vec2d.direction`. The chained assignment
`resultVec[0] = resultVec[1] = 0` stores element 1 first. -/
def direction (h : Heap) (vec0 vec1 resultVec : Ref) : Heap × Ref :=
  let x := Double.sub (h.read vec1 0) (h.read vec0 0)
  let y := Double.sub (h.read vec1 1) (h.read vec0 1)
  let d := Double.sqrt (Double.add (Double.mul x x) (Double.mul y y))
  if d.truthy then
    let d := Double.div one d
    let h := h.write resultVec 0 (Double.mul x d)
    let h := h.write resultVec 1 (Double.mul y d)
    (h, resultVec)
  else
    let h := h.write resultVec 1 zero
    let h := h.write resultVec 0 zero
    (h, resultVec)

/-- `goog.vec.vec2d.lerp`. -/
def lerp (h : Heap) (vec0 vec1 : Ref) (f : Double) (resultVec : Ref) : Heap × Ref :=
  let x := h.read vec0 0
  let y := h.read vec0 1
  let h := h.write resultVec 0 (Double.add (Double.mul (Double.sub (h.read vec1 0) x) f) x)
  let h := h.write resultVec 1 (Double.add (Double.mul (Double.sub (h.read vec1 1) y) f) y)
  (h, resultVec)

/-- `goog.vec.vec2d.equals`. -/
def equals (h : Heap) (vec0 vec1 : Ref) : Bool :=
  (h.obj vec0).length == (h.obj vec1).length &&
    Double.eq (h.read vec0 0) (h.read vec1 0) && Double.eq (h.read vec0 1) (h.read vec1 1)

end goog.vec.vec2d

/-! ## Stores for the examples -/

namespace Heap

open goog.vec.vec2d in
/-- Vector 0 is `(0, 0)` and vector 1 is `(1, 1)`. -/
def diagonal : Heap :=
  (setFromValues (setFromValues Heap.empty 0 (Double.ofNat 0) (Double.ofNat 0)).1
    1 (Double.ofNat 1) (Double.ofNat 1)).1

open goog.vec.vec2d in
/-- Vectors 0 and 1 are `(1, 2)` and vector 2 is `(1, 3)`. -/
def triple : Heap :=
  (setFromValues
    (setFromValues (setFromValues Heap.empty 0 (Double.ofNat 1) (Double.ofNat 2)).1
      1 (Double.ofNat 1) (Double.ofNat 2)).1
    2 (Double.ofNat 1) (Double.ofNat 3)).1

end Heap

/-! ## Reading the store after writes -/

theorem Heap.read_write (h : Heap) (r p : Ref) (i j : Fin 2) (x : Double) :
    (h.write r i x).read p j = if p = r ∧ j = i then x else h.read p j := by
  unfold Heap.write Heap.read Float64Array.get Float64Array.set
  by_cases hp : p = r <;> fin_cases i <;> fin_cases j <;> simp [hp]

theorem Heap.obj_eq_of_read (h1 h2 : Heap) (r q : Ref)
    (e0 : h1.read r 0 = h2.read q 0) (e1 : h1.read r 1 = h2.read q 1) :
    h1.obj r = h2.obj q := by
  unfold Heap.read Float64Array.get at e0 e1
  simp at e0 e1
  cases hr : h1.obj r
  cases hq : h2.obj q
  simp_all

/-! ## Aliasing of the output parameter -/

open goog.vec.vec2d in
/-- C1: for each of add, subtract, negate, scale, normalize, direction and
lerp, whatever vector is passed as output (one of the inputs included), it
is left holding the components the same call writes into a temporary vector
distinct from the inputs; and `add(a,b,a)` leaves in `a` what
`add(a,b,tmp)` followed by a copy of `tmp` into `a` leaves there. -/
theorem aliasing_output_harmless (h : Heap) (a b out tmp : Ref) (k f : Double)
    (ha : tmp ≠ a) (hb : tmp ≠ b) :
    (add h a b out).1.obj out = (add h a b tmp).1.obj tmp ∧
    (subtract h a b out).1.obj out = (subtract h a b tmp).1.obj tmp ∧
    (negate h a out).1.obj out = (negate h a tmp).1.obj tmp ∧
    (scale h a k out).1.obj out = (scale h a k tmp).1.obj tmp ∧
    (goog.vec.vec2d.normalize h a out).1.obj out =
      (goog.vec.vec2d.normalize h a tmp).1.obj tmp ∧
    (direction h a b out).1.obj out = (direction h a b tmp).1.obj tmp ∧
    (lerp h a b f out).1.obj out = (lerp h a b f tmp).1.obj tmp ∧
    (add h a b a).1.obj a = (setFromVec2d (add h a b tmp).1 a tmp).1.obj a := by
  have ha' : a ≠ tmp := fun e => ha e.symm
  have hb' : b ≠ tmp := fun e => hb e.symm
  refine ⟨?_, ?_, ?_, ?_, ?_, ?_, ?_, ?_⟩
  · apply Heap.obj_eq_of_read <;> simp [add, Heap.read_write, ha', hb']
  · apply Heap.obj_eq_of_read <;> simp [subtract, Heap.read_write, ha', hb']
  · apply Heap.obj_eq_of_read <;> simp [negate, Heap.read_write, ha']
  · apply Heap.obj_eq_of_read <;> simp [scale, Heap.read_write, ha']
  · apply Heap.obj_eq_of_read <;> simp [goog.vec.vec2d.normalize, Heap.read_write, ha']
  · apply Heap.obj_eq_of_read <;> simp only [direction] <;> split_ifs <;>
      simp [Heap.read_write, ha', hb']
  · apply Heap.obj_eq_of_read <;> simp [lerp, Heap.read_write, ha', hb']
  · apply Heap.obj_eq_of_read <;> simp [add, setFromVec2d, Heap.read_write, ha', hb', ha, hb]

/-! ## Rounding: values that need none -/

namespace Double

theorem roundScaled_exact (n den : Nat) (hden : 0 < den)
    (hn : n % 2 ^ (bitLen n - 53) = 0) : roundScaled (n * den) den = n := by
  unfold roundScaled
  have hq : n * den / den = n := Nat.mul_div_cancel n hden
  have hpow : 0 < 2 ^ (bitLen n - 53) := Nat.pow_pos (by decide)
  have hhi : n * den / (den * 2 ^ (bitLen n - 53)) = n / 2 ^ (bitLen n - 53) := by
    rw [Nat.mul_comm den, Nat.mul_div_mul_right _ _ hden]
  have hrem : n * den % (den * 2 ^ (bitLen n - 53)) = 0 := by
    rw [Nat.mul_comm den, Nat.mul_mod_mul_right, hn, Nat.zero_mul]
  have hd : den * 2 ^ (bitLen n - 53) ≠ 0 := Nat.ne_of_gt (Nat.mul_pos hden hpow)
  simp only [hq, hhi, hrem]
  have hup : (decide (den * 2 ^ (bitLen n - 53) < 2 * 0) ||
      (2 * 0 == den * 2 ^ (bitLen n - 53) && n / 2 ^ (bitLen n - 53) % 2 == 1)) = false := by
    simp [hd, Ne.symm hd]
  rw [hup]
  exact Nat.div_mul_cancel (Nat.dvd_of_mod_eq_zero hn)

theorem ofScaled_exact (s : Bool) (n den : Nat) (hden : 0 < den) (hn : Rep n) :
    ofScaled s (n * den) den = fin s n := by
  unfold ofScaled
  simp only [roundScaled_exact n den hden hn.1, hn.2, if_true]

theorem ofScaled_exact_one (s : Bool) (n : Nat) (hn : Rep n) :
    ofScaled s n 1 = fin s n := by
  have := ofScaled_exact s n 1 (by decide) hn
  rwa [Nat.mul_one] at this

theorem rep_zero : Rep 0 := by decide

theorem unit_pos : 0 < unit := Nat.pow_pos (by decide)

end Double

/-! ## The number model: bit lengths, square roots, and closure

Every arithmetic operation returns a binary64 number (`Double.Valid`), and
the rounding is to nearest. -/

theorem bitLenAux_zero (f : Nat) : bitLenAux f 0 = 0 := by
  cases f <;> simp [bitLenAux]

theorem bitLenAux_lt (f : Nat) : ∀ n, n < 2 ^ f → n < 2 ^ bitLenAux f n := by
  induction f with
  | zero => intro n hn; simpa [bitLenAux] using hn
  | succ f ih =>
    intro n hn
    unfold bitLenAux
    by_cases h0 : n = 0
    · simp [h0]
    · simp only [h0, if_false]
      have h2 : n / 2 < 2 ^ f := by
        rw [Nat.pow_succ] at hn; omega
      have := ih (n / 2) h2
      rw [Nat.pow_succ]; omega

theorem bitLenAux_le (f : Nat) : ∀ n, n < 2 ^ f → n ≠ 0 → 2 ^ (bitLenAux f n - 1) ≤ n := by
  induction f with
  | zero => intro n hn h0; simp at hn; exact absurd hn h0
  | succ f ih =>
    intro n hn h0
    unfold bitLenAux
    simp only [h0, if_false, Nat.add_sub_cancel]
    have h2 : n / 2 < 2 ^ f := by
      rw [Nat.pow_succ] at hn; omega
    by_cases h1 : n / 2 = 0
    · rw [h1, bitLenAux_zero]; simp; omega
    · have := ih (n / 2) h2 h1
      have hb : bitLenAux f (n / 2) ≠ 0 := by
        cases f with
        | zero => simp at h2; exact absurd h2 h1
        | succ f => unfold bitLenAux; simp [h1]
      have e : bitLenAux f (n / 2) = (bitLenAux f (n / 2) - 1) + 1 := by omega
      rw [e, Nat.pow_succ]; omega

theorem lt_two_pow_bitLen (n : Nat) : n < 2 ^ bitLen n :=
  bitLenAux_lt n n (Nat.lt_two_pow n)

theorem two_pow_bitLen_le (n : Nat) (h : n ≠ 0) : 2 ^ (bitLen n - 1) ≤ n :=
  bitLenAux_le n n (Nat.lt_two_pow n) h

theorem bitLen_le_of_lt (n b : Nat) (h : n < 2 ^ b) : bitLen n ≤ b := by
  by_cases h0 : n = 0
  · subst h0; simp [bitLen, bitLenAux_zero]
  · have h1 := two_pow_bitLen_le n h0
    have h2 : 2 ^ (bitLen n - 1) < 2 ^ b := Nat.lt_of_le_of_lt h1 h
    have h3 := (Nat.pow_lt_pow_iff_right (by decide : 1 < 2)).mp h2
    omega

theorem div_pow_bitLen_lt (q : Nat) : q / 2 ^ (bitLen q - 53) < 2 ^ 53 := by
  have h := lt_two_pow_bitLen q
  rw [Nat.div_lt_iff_lt_mul (Nat.pow_pos (by decide)), ← Nat.pow_add]
  exact Nat.lt_of_lt_of_le h (Nat.pow_le_pow_right (by decide) (by omega))

theorem mod_pow_bitLen_mul (hi k : Nat) (hh : hi ≤ 2 ^ 53) :
    (hi * 2 ^ k) % 2 ^ (bitLen (hi * 2 ^ k) - 53) = 0 := by
  have hb : bitLen (hi * 2 ^ k) ≤ 54 + k := by
    apply bitLen_le_of_lt
    have : hi * 2 ^ k ≤ 2 ^ 53 * 2 ^ k := Nat.mul_le_mul_right _ hh
    have e : (2:Nat) ^ (54 + k) = 2 * (2 ^ 53 * 2 ^ k) := by
      rw [← Nat.pow_add, ← Nat.pow_succ']; congr 1; omega
    have hp : 0 < 2 ^ 53 * 2 ^ k := Nat.mul_pos (Nat.pow_pos (by decide)) (Nat.pow_pos (by decide))
    omega
  apply Nat.mod_eq_zero_of_dvd
  by_cases hlt : hi < 2 ^ 53
  · have hb' : bitLen (hi * 2 ^ k) ≤ 53 + k := by
      apply bitLen_le_of_lt
      rw [Nat.pow_add]
      exact Nat.mul_lt_mul_of_pos_right hlt (Nat.pow_pos (by decide))
    exact Dvd.dvd.mul_left (Nat.pow_dvd_pow 2 (by omega)) hi
  · have e : hi = 2 ^ 53 := by omega
    rw [e, ← Nat.pow_add] at hb ⊢
    exact Nat.pow_dvd_pow 2 (by omega)

theorem isqrtAux_sq_le (i : Nat) : ∀ n r, r * r ≤ n → isqrtAux i n r * isqrtAux i n r ≤ n := by
  induction i with
  | zero => intro n r h; simpa [isqrtAux] using h
  | succ i ih =>
    intro n r h
    unfold isqrtAux
    split_ifs with hc
    · exact ih n _ hc
    · exact ih n r h

theorem isqrtAux_lt_sq (i : Nat) : ∀ n r, n < (r + 2 ^ i) * (r + 2 ^ i) →
    n < (isqrtAux i n r + 1) * (isqrtAux i n r + 1) := by
  induction i with
  | zero => intro n r h; simpa [isqrtAux] using h
  | succ i ih =>
    intro n r h
    unfold isqrtAux
    split_ifs with hc
    · apply ih
      have e : r + 2 ^ i + 2 ^ i = r + 2 ^ (i + 1) := by rw [Nat.pow_succ]; omega
      rw [e]; exact h
    · exact ih n r (Nat.lt_of_not_le hc)

theorem isqrt_sq_le (n : Nat) : isqrt n * isqrt n ≤ n :=
  isqrtAux_sq_le _ n 0 (Nat.zero_le n)

theorem lt_succ_isqrt_sq (n : Nat) : n < (isqrt n + 1) * (isqrt n + 1) := by
  apply isqrtAux_lt_sq
  have h := lt_two_pow_bitLen n
  have e : (0 + 2 ^ (bitLen n / 2 + 1)) * (0 + 2 ^ (bitLen n / 2 + 1)) =
      2 ^ (bitLen n / 2 + 1 + (bitLen n / 2 + 1)) := by
    rw [Nat.zero_add, ← Nat.pow_add]
  rw [e]
  exact Nat.lt_of_lt_of_le h (Nat.pow_le_pow_right (by decide) (by omega))

theorem isqrt_eq_sqrt (n : Nat) : isqrt n = Nat.sqrt n :=
  Nat.eq_sqrt.mpr ⟨isqrt_sq_le n, lt_succ_isqrt_sq n⟩

namespace Double

theorem roundScaled_mod (num den : Nat) :
    roundScaled num den % 2 ^ (bitLen (roundScaled num den) - 53) = 0 := by
  unfold roundScaled
  simp only []
  apply mod_pow_bitLen_mul
  have h : num / (den * 2 ^ (bitLen (num / den) - 53)) < 2 ^ 53 := by
    rw [← Nat.div_div_eq_div_mul]
    exact div_pow_bitLen_lt _
  split_ifs <;> omega

/-- Rounding lands on a binary64 number. -/
theorem ofScaled_valid (s : Bool) (num den : Nat) : Valid (ofScaled s num den) := by
  unfold ofScaled
  simp only []
  split_ifs with h
  · exact ⟨roundScaled_mod num den, h⟩
  · trivial

/-- Rounding is to nearest: the result is within half a grid step of the
exact quotient (the grid step is `2 ^ k`, `k` as in `roundScaled`). -/
theorem roundScaled_nearest (num den : Nat) (hden : 0 < den) :
    2 * (num - roundScaled num den * den) ≤ den * 2 ^ (bitLen (num / den) - 53) ∧
    2 * (roundScaled num den * den - num) ≤ den * 2 ^ (bitLen (num / den) - 53) := by
  unfold roundScaled
  simp only []
  generalize hk : 2 ^ (bitLen (num / den) - 53) = g
  generalize hd : den * g = d
  have hg : 0 < g := by rw [← hk]; exact Nat.pow_pos (by decide)
  have hd0 : 0 < d := by rw [← hd]; exact Nat.mul_pos hden hg
  have hnum : d * (num / d) + num % d = num := Nat.div_add_mod num d
  have hrem : num % d < d := Nat.mod_lt _ hd0
  have e1 : num / d * g * den = d * (num / d) := by rw [← hd]; ring
  have e2 : (num / d + 1) * g * den = d * (num / d) + d := by rw [← hd]; ring
  split_ifs with hup
  · rw [e2]
    simp only [Bool.or_eq_true, decide_eq_true_eq, Bool.and_eq_true, beq_iff_eq] at hup
    omega
  · rw [e1]
    simp only [Bool.or_eq_true, decide_eq_true_eq, Bool.and_eq_true, beq_iff_eq] at hup
    omega

theorem valid_zero (s : Bool) : Valid (fin s 0) := by
  unfold Valid
  exact rep_zero

theorem add_valid (x y : Double) (hx : Valid x) (hy : Valid y) : Valid (add x y) := by
  cases x <;> cases y <;> simp only [add] <;> try exact True.intro
  all_goals split_ifs <;> first | exact ofScaled_valid _ _ _ | exact valid_zero _ | exact True.intro

theorem neg_valid (x : Double) (hx : Valid x) : Valid (neg x) := by
  cases x <;> exact hx

theorem sub_valid (x y : Double) (hx : Valid x) (hy : Valid y) : Valid (sub x y) :=
  add_valid x (neg y) hx (neg_valid y hy)

theorem mul_valid (x y : Double) : Valid (mul x y) := by
  cases x <;> cases y <;> simp only [mul] <;> try exact True.intro
  all_goals first | exact ofScaled_valid _ _ _ | (split_ifs <;> exact True.intro)

theorem div_valid (x y : Double) : Valid (div x y) := by
  cases x <;> cases y <;> simp only [div] <;> try exact True.intro
  all_goals first
    | exact valid_zero _
    | (split_ifs <;> first | exact ofScaled_valid _ _ _ | exact True.intro)

theorem isqrt_lt_of_lt_sq (a b : Nat) (h : a < b * b) : isqrt a < b := by
  by_contra hc
  have h1 : b ≤ isqrt a := Nat.le_of_not_lt hc
  have h2 := Nat.mul_self_le_mul_self h1
  have h3 := isqrt_sq_le a
  omega

theorem sqrt_valid (x : Double) (hx : Valid x) : Valid (sqrt x) := by
  cases x with
  | nan => exact True.intro
  | inf s => cases s <;> exact True.intro
  | fin s n =>
    unfold sqrt
    by_cases hn : n = 0
    · simp only [hn, if_true]; exact valid_zero s
    · cases s
      · simp only [hn, if_false, Bool.false_eq_true]
        have hhi := div_pow_bitLen_lt (isqrt (n * unit))
        have hr : isqrt (n * unit) < 2 ^ 1586 := by
          apply isqrt_lt_of_lt_sq
          have h1 : n * unit < limit * unit := Nat.mul_lt_mul_of_pos_right hx.2 unit_pos
          have h2 : limit * unit = 2 ^ 1586 * 2 ^ 1586 := by
            unfold limit unit; rw [← Nat.pow_add, ← Nat.pow_add]
          omega
        have hb : bitLen (isqrt (n * unit)) ≤ 1586 := bitLen_le_of_lt _ _ hr
        refine ⟨mod_pow_bitLen_mul _ _ ?_, ?_⟩
        · split_ifs <;> omega
        · have h1 : (if (decide ((2 * (isqrt (n * unit) / 2 ^ (bitLen (isqrt (n * unit)) - 53)) + 1)
              * (2 * (isqrt (n * unit) / 2 ^ (bitLen (isqrt (n * unit)) - 53)) + 1)
              * 4 ^ (bitLen (isqrt (n * unit)) - 53) < 4 * (n * unit)) ||
              ((2 * (isqrt (n * unit) / 2 ^ (bitLen (isqrt (n * unit)) - 53)) + 1)
              * (2 * (isqrt (n * unit) / 2 ^ (bitLen (isqrt (n * unit)) - 53)) + 1)
              * 4 ^ (bitLen (isqrt (n * unit)) - 53) == 4 * (n * unit) &&
              isqrt (n * unit) / 2 ^ (bitLen (isqrt (n * unit)) - 53) % 2 == 1)) = true
              then isqrt (n * unit) / 2 ^ (bitLen (isqrt (n * unit)) - 53) + 1
              else isqrt (n * unit) / 2 ^ (bitLen (isqrt (n * unit)) - 53)) ≤ 2 ^ 53 := by
            split_ifs <;> omega
          have h2 := Nat.mul_le_mul_right (2 ^ (bitLen (isqrt (n * unit)) - 53)) h1
          have h3 : 2 ^ 53 * 2 ^ (bitLen (isqrt (n * unit)) - 53) ≤ 2 ^ 1586 := by
            rw [← Nat.pow_add]
            exact Nat.pow_le_pow_right (by decide) (by omega)
          have h4 : 2 ^ 1586 < limit := by
            unfold limit
            exact Nat.pow_lt_pow_right (by decide) (by decide)
          exact Nat.lt_of_le_of_lt (Nat.le_trans h2 h3) h4
      · simp only [hn, if_false, if_true]
        exact True.intro

/-- The square root is rounded to nearest: the exact root of `n * unit`
lies within half a grid step `g` of the result, `g` the power of two that
`sqrt` rounds at. -/
theorem sqrt_nearest (n : Nat) (hn : n ≠ 0) :
    ∃ res, sqrt (fin false n) = fin false res ∧
      (2 * res - 2 ^ (bitLen (isqrt (n * unit)) - 53)) ^ 2 ≤ 4 * (n * unit) ∧
      4 * (n * unit) ≤ (2 * res + 2 ^ (bitLen (isqrt (n * unit)) - 53)) ^ 2 := by
  unfold sqrt
  simp only [hn, if_false, Bool.false_eq_true]
  refine ⟨_, rfl, ?_⟩
  have h4 : (4 : Nat) ^ (bitLen (isqrt (n * unit)) - 53) =
      2 ^ (bitLen (isqrt (n * unit)) - 53) * 2 ^ (bitLen (isqrt (n * unit)) - 53) := by
    rw [← Nat.mul_pow]
  rw [h4]
  have hg : 0 < 2 ^ (bitLen (isqrt (n * unit)) - 53) := Nat.pow_pos (by decide)
  have h1 := Nat.div_mul_le_self (isqrt (n * unit)) (2 ^ (bitLen (isqrt (n * unit)) - 53))
  have h2 := Nat.lt_mul_div_succ (isqrt (n * unit)) hg
  have h3 := isqrt_sq_le (n * unit)
  have h5 := lt_succ_isqrt_sq (n * unit)
  generalize 2 ^ (bitLen (isqrt (n * unit)) - 53) = g at *
  generalize isqrt (n * unit) = r at *
  generalize n * unit = a at *
  generalize r / g = hi at *
  split_ifs with hup
  · simp only [Bool.or_eq_true, decide_eq_true_eq, Bool.and_eq_true, beq_iff_eq] at hup
    have hm : (2 * hi + 1) * (2 * hi + 1) * (g * g) ≤ 4 * a := by
      rcases hup with h | h
      · exact Nat.le_of_lt h
      · exact Nat.le_of_eq h.1
    have e : 2 * ((hi + 1) * g) - g = (2 * hi + 1) * g := by
      have : 2 * ((hi + 1) * g) = (2 * hi + 1) * g + g := by ring
      omega
    constructor
    · rw [e]
      have : ((2 * hi + 1) * g) ^ 2 = (2 * hi + 1) * (2 * hi + 1) * (g * g) := by ring
      rw [this]; exact hm
    · have h6 : r + 1 ≤ (hi + 1) * g := by
        have : g * (hi + 1) = (hi + 1) * g := Nat.mul_comm _ _
        omega
      have h7 := Nat.mul_self_le_mul_self h6
      nlinarith
  · simp only [Bool.or_eq_true, decide_eq_true_eq, Bool.and_eq_true, beq_iff_eq, not_or] at hup
    have hm : 4 * a ≤ (2 * hi + 1) * (2 * hi + 1) * (g * g) := Nat.le_of_not_lt hup.1
    constructor
    · have h7 := Nat.mul_self_le_mul_self h1
      have h8 : 2 * (hi * g) - g ≤ 2 * (hi * g) := Nat.sub_le _ _
      have h9 := Nat.mul_self_le_mul_self h8
      have : (2 * (hi * g) - g) ^ 2 = (2 * (hi * g) - g) * (2 * (hi * g) - g) := by ring
      rw [this]
      nlinarith
    · have : (2 * (hi * g) + g) ^ 2 = (2 * hi + 1) * (2 * hi + 1) * (g * g) := by ring
      rw [this]; exact hm

end Double

namespace Double

theorem units_neg (x : Double) : units (neg x) = - units x := by
  cases x with
  | nan => simp [neg, units]
  | inf s => simp [neg, units]
  | fin s n => cases s <;> simp [neg, units]

theorem isFinite_neg (x : Double) : (neg x).isFinite = x.isFinite := by
  cases x <;> rfl

theorem ofScaled_zero (b : Bool) : ofScaled b 0 1 = fin b 0 :=
  ofScaled_exact_one b 0 rep_zero

theorem ofSigned_natCast (b : Bool) (k : Nat) :
    ofSigned b (k : Int) = if k = 0 then fin b 0 else ofScaled false k 1 := by
  unfold ofSigned
  by_cases hk : k = 0
  · simp [hk]
  · have h1 : ((k : Int) = 0) ↔ False := by simp [hk]
    have h2 : ((k : Int) < 0) ↔ False := by simp
    simp [h1, h2, hk]

theorem ofSigned_neg_natCast (b : Bool) (k : Nat) :
    ofSigned b (-(k : Int)) = if k = 0 then fin b 0 else ofScaled true k 1 := by
  unfold ofSigned
  by_cases hk : k = 0
  · simp [hk]
  · have h2 : (0 < k) := Nat.pos_of_ne_zero hk
    simp [hk, h2]

theorem add_fin (s t : Bool) (n m : Nat) :
    add (fin s n) (fin t m) = ofSigned (s && t) (units (fin s n) + units (fin t m)) := by
  cases s <;> cases t <;> simp only [add, units]
  · have e : (n : Int) + (m : Int) = ((n + m : Nat) : Int) := by omega
    simp only [if_true, Bool.false_eq_true, if_false, e, ofSigned_natCast]
    split_ifs with h
    · rw [h, ofScaled_zero]; rfl
    · rfl
  · simp only [Bool.false_eq_true, if_false, if_true]
    rcases Nat.lt_trichotomy n m with h | h | h
    · have e : (n : Int) + -(m : Int) = -((m - n : Nat) : Int) := by omega
      have hne : m - n ≠ 0 := by omega
      simp [e, ofSigned_neg_natCast, h, Nat.lt_asymm h, hne]
    · subst h
      simp [ofSigned]
    · have e : (n : Int) + -(m : Int) = ((n - m : Nat) : Int) := by omega
      have hne : n - m ≠ 0 := by omega
      simp [e, ofSigned_natCast, h, hne]
  · simp only [Bool.false_eq_true, if_false, if_true]
    rcases Nat.lt_trichotomy n m with h | h | h
    · have e : -(n : Int) + (m : Int) = ((m - n : Nat) : Int) := by omega
      have hne : m - n ≠ 0 := by omega
      simp [e, ofSigned_natCast, h, Nat.lt_asymm h, hne]
    · subst h
      simp [ofSigned]
    · have e : -(n : Int) + (m : Int) = -((n - m : Nat) : Int) := by omega
      have hne : n - m ≠ 0 := by omega
      simp [e, ofSigned_neg_natCast, h, hne]
  · have e : -(n : Int) + -(m : Int) = -((n + m : Nat) : Int) := by omega
    simp only [if_true, e, ofSigned_neg_natCast]
    split_ifs with h
    · rw [h, ofScaled_zero]; rfl
    · rfl

theorem ofSigned_rep (b : Bool) (z : Int) (hz : Rep z.natAbs) :
    ofSigned b z = fin (if z = 0 then b else decide (z < 0)) z.natAbs := by
  unfold ofSigned
  by_cases h : z = 0
  · simp [h]
  · simp only [h, if_false]
    exact ofScaled_exact_one _ _ hz

theorem units_ofSigned_rep (b : Bool) (z : Int) (hz : Rep z.natAbs) :
    units (ofSigned b z) = z := by
  rw [ofSigned_rep b z hz]
  unfold units
  by_cases h : z = 0
  · simp [h]
  · by_cases hlt : z < 0
    · simp only [h, hlt, if_false, decide_True, if_true]; omega
    · simp only [h, hlt, if_false, decide_False, Bool.false_eq_true]; omega

theorem eq_of_units_eq (x y : Double) (hx : x.isFinite = true) (hy : y.isFinite = true)
    (h : units x = units y) : eq x y = true := by
  cases x with
  | nan => simp [isFinite] at hx
  | inf s => simp [isFinite] at hx
  | fin s n =>
    cases y with
    | nan => simp [isFinite] at hy
    | inf t => simp [isFinite] at hy
    | fin t m =>
      cases s <;> cases t <;> simp [units] at h <;> simp [eq] <;> omega

theorem isFinite_ofSigned_rep (b : Bool) (z : Int) (hz : Rep z.natAbs) :
    (ofSigned b z).isFinite = true := by
  rw [ofSigned_rep b z hz]; rfl

theorem natAbs_units_fin (s : Bool) (n : Nat) : (units (fin s n)).natAbs = n := by
  cases s <;> simp [units]

theorem sub_fin (s t : Bool) (n m : Nat) :
    sub (fin s n) (fin t m) = ofSigned (s && !t) (units (fin s n) - units (fin t m)) := by
  have e := add_fin s (!t) n m
  have u : units (fin (!t) m) = - units (fin t m) := units_neg (fin t m)
  rw [u] at e
  unfold sub
  simpa [neg, Int.sub_eq_add_neg] using e

/-- An exact sum loses nothing: subtracting the second term gives the first
back, up to the sign of a zero. -/
theorem sub_add_cancel_exact (x y : Double) (hx : Valid x) (h : AddExact x y) :
    eq (sub (add x y) y) x = true := by
  obtain ⟨fx, fy, hr⟩ := h
  cases x with
  | nan => simp [isFinite] at fx
  | inf s => simp [isFinite] at fx
  | fin s n =>
    cases y with
    | nan => simp [isFinite] at fy
    | inf t => simp [isFinite] at fy
    | fin t m =>
      have hn : Rep (units (fin s n)).natAbs := by rw [natAbs_units_fin]; exact hx
      rw [add_fin, ofSigned_rep _ _ hr, sub_fin]
      have hu := units_ofSigned_rep (s && t) _ hr
      rw [ofSigned_rep _ _ hr] at hu
      rw [hu]
      have hz : units (fin s n) + units (fin t m) - units (fin t m) = units (fin s n) := by omega
      rw [hz]
      exact eq_of_units_eq _ _ (isFinite_ofSigned_rep _ _ hn) rfl (units_ofSigned_rep _ _ hn)

theorem mul_zero_fin (t : Bool) (m : Nat) : mul (fin t m) zero = fin t 0 := by
  have e := ofScaled_exact t 0 unit (by decide) rep_zero
  simp only [Nat.zero_mul] at e
  simp [mul, zero, e]

theorem mul_one_fin (t : Bool) (m : Nat) (hm : Rep m) : mul (fin t m) one = fin t m := by
  have e := ofScaled_exact t m unit (by decide) hm
  simp [mul, one, e]

/-- With factor `0` the interpolation `(y - x) * 0 + x` gives `x` back, as
long as the difference is finite. -/
theorem lerp_zero (x y : Double) (hx : Valid x) (fx : x.isFinite = true)
    (fd : (sub y x).isFinite = true) : eq (add (mul (sub y x) zero) x) x = true := by
  cases x with
  | nan => simp [isFinite] at fx
  | inf s => simp [isFinite] at fx
  | fin s n =>
    have hn : Rep (units (fin s n)).natAbs := by rw [natAbs_units_fin]; exact hx
    cases hd : sub y (fin s n) with
    | nan => rw [hd] at fd; simp [isFinite] at fd
    | inf t => rw [hd] at fd; simp [isFinite] at fd
    | fin t m =>
      rw [mul_zero_fin, add_fin]
      have hz : units (fin t 0) + units (fin s n) = units (fin s n) := by
        cases t <;> simp [units]
      rw [hz]
      exact eq_of_units_eq _ _ (isFinite_ofSigned_rep _ _ hn) rfl (units_ofSigned_rep _ _ hn)

/-- With factor `1` the interpolation `(y - x) * 1 + x` gives `y`, as long as
the difference `y - x` is exact. -/
theorem lerp_one (x y : Double) (hy : Valid y) (h : SubExact y x) :
    eq (add (mul (sub y x) one) x) y = true := by
  obtain ⟨fy, fx, hr⟩ := h
  cases x with
  | nan => simp [isFinite] at fx
  | inf s => simp [isFinite] at fx
  | fin s n =>
    cases y with
    | nan => simp [isFinite] at fy
    | inf t => simp [isFinite] at fy
    | fin t m =>
      have hm : Rep (units (fin t m)).natAbs := by rw [natAbs_units_fin]; exact hy
      have hu := units_ofSigned_rep (t && !s) _ hr
      rw [sub_fin, ofSigned_rep _ _ hr] at *
      rw [mul_one_fin _ _ hr, add_fin, hu]
      have hz : units (fin t m) - units (fin s n) + units (fin s n) = units (fin t m) := by omega
      rw [hz]
      exact eq_of_units_eq _ _ (isFinite_ofSigned_rep _ _ hm) rfl (units_ofSigned_rep _ _ hm)

theorem neg_ofScaled (s : Bool) (num den : Nat) :
    neg (ofScaled s num den) = ofScaled (!s) num den := by
  unfold ofScaled
  simp only []
  split_ifs <;> rfl

theorem neg_ofSigned_of_ne (b c : Bool) (z : Int) (hz : z ≠ 0) :
    ofSigned c (-z) = neg (ofSigned b z) := by
  have hz' : -z ≠ 0 := by omega
  unfold ofSigned
  rw [if_neg hz, if_neg hz', neg_ofScaled, Int.natAbs_neg]
  congr 1
  by_cases h : z < 0
  · have h' : ¬ (-z < 0) := by omega
    simp [h, h']
  · have h' : -z < 0 := by omega
    simp [h, h']

/-- Swapping the operands of a subtraction negates the result, or leaves it
as it is (a NaN, or the zero of two equal operands). -/
theorem sub_swap (x y : Double) : sub y x = neg (sub x y) ∨ sub y x = sub x y := by
  cases x with
  | nan => cases y <;> simp [sub, add, neg]
  | inf s =>
    cases y with
    | nan => simp [sub, add, neg]
    | inf t => cases s <;> cases t <;> simp [sub, add, neg]
    | fin t m => simp [sub, add, neg]
  | fin s n =>
    cases y with
    | nan => simp [sub, add, neg]
    | inf t => simp [sub, add, neg]
    | fin t m =>
      rw [sub_fin, sub_fin]
      by_cases hz : units (fin s n) - units (fin t m) = 0
      · have hz' : units (fin t m) - units (fin s n) = 0 := by omega
        rw [hz, hz']
        cases s <;> cases t <;> simp [ofSigned, neg]
      · left
        have e : units (fin t m) - units (fin s n) = -(units (fin s n) - units (fin t m)) := by
          omega
        rw [e]
        exact neg_ofSigned_of_ne _ _ _ hz

theorem mul_self_neg (x : Double) : mul (neg x) (neg x) = mul x x := by
  cases x with
  | nan => rfl
  | inf s => cases s <;> rfl
  | fin s n => cases s <;> rfl

/-- The square of a difference does not depend on the order of the operands. -/
theorem sq_sub_comm (x y : Double) :
    mul (sub x y) (sub x y) = mul (sub y x) (sub y x) := by
  rcases sub_swap x y with h | h
  · rw [h, mul_self_neg]
  · rw [h]

theorem sub_self (x : Double) : sub x x = zero ∨ sub x x = nan := by
  cases x with
  | nan => right; rfl
  | inf s => right; cases s <;> rfl
  | fin s n => left; cases s <;> simp [sub, neg, add, zero]

theorem not_truthy_of_eq_zero (x : Double) (h : eq x zero = true) : x.truthy = false := by
  cases x with
  | nan => rfl
  | inf s => simp [eq, zero] at h
  | fin s n => simp [eq, zero] at h; simp [truthy, h.1]

theorem sqrt_sq_sub_self (x y : Double) :
    (sqrt (add (mul (sub x x) (sub x x)) (mul (sub y y) (sub y y)))).truthy = false := by
  have hz : mul zero zero = zero := mul_zero_fin false 0
  have ha : add zero zero = zero := by
    simp [add, zero, ofScaled_zero]
  rcases sub_self x with hx | hx <;> rcases sub_self y with hy | hy <;>
    simp [hx, hy, hz, ha] <;> simp [zero, mul, add, sqrt, truthy]

theorem mul_zero_zero : mul zero zero = zero := mul_zero_fin false 0

theorem add_zero_zero : add zero zero = zero := by
  simp [add, zero, ofScaled_zero]

theorem sqrt_zero : sqrt zero = zero := by
  simp [sqrt, zero]

/-- A truthy square root is a positive number or `+Infinity`. -/
theorem sqrt_truthy_cases (x : Double) (h : (sqrt x).truthy = true) :
    sqrt x = inf false ∨ ∃ n, n ≠ 0 ∧ sqrt x = fin false n := by
  cases x with
  | nan => simp [sqrt, truthy] at h
  | inf s => cases s <;> simp [sqrt, truthy] at h ⊢
  | fin s n =>
    unfold sqrt at h ⊢
    by_cases hn : n = 0
    · simp [hn, truthy] at h
    · cases s
      · simp only [hn, if_false, Bool.false_eq_true] at h ⊢
        right
        refine ⟨_, ?_, rfl⟩
        simpa [truthy] using h
      · simp [hn, truthy] at h

/-- The reciprocal of a truthy square root is not NaN and not negative. -/
theorem div_one_sqrt_sign (x : Double) (h : (sqrt x).truthy = true) :
    div one (sqrt x) = inf false ∨ ∃ n, div one (sqrt x) = fin false n := by
  rcases sqrt_truthy_cases x h with e | ⟨n, hn, e⟩
  · right; rw [e]; exact ⟨0, rfl⟩
  · rw [e]
    simp only [div, one, hn, if_false, Bool.xor_false]
    unfold ofScaled
    simp only []
    split_ifs
    · right; exact ⟨_, rfl⟩
    · left; rfl

theorem sub_self_fin (s : Bool) (n : Nat) : sub (fin s n) (fin s n) = zero := by
  cases s <;> simp [sub, neg, add, zero]

theorem sub_self_not_finite (x : Double) (h : x.isFinite = false) : sub x x = nan := by
  cases x with
  | nan => rfl
  | inf s => cases s <;> rfl
  | fin s n => simp [isFinite] at h

theorem eq_self (x : Double) (h : x ≠ nan) : eq x x = true := by
  cases x with
  | nan => exact absurd rfl h
  | inf s => simp [eq]
  | fin s n => simp [eq]

theorem add_nan_left (x : Double) : add nan x = nan := by
  cases x <;> rfl

theorem add_nan_right (x : Double) : add x nan = nan := by
  cases x <;> rfl

theorem div_one_zero : div one zero = inf false := by
  have h : unit ≠ 0 := Nat.ne_of_gt unit_pos
  simp [div, one, zero, h]

theorem mul_zero_inf : mul zero (inf false) = nan := by
  simp [mul, zero]

end Double

/-! ## Addition followed by subtraction -/

open goog.vec.vec2d in
/-- C2, as stated, fails: with `a = (1, 1)` and `b = (2^53, 2^53)` the sum
rounds to `2^53`, and subtracting `b` leaves `(0, 0)` in `out2`, which does
not compare equal to `a`. -/
theorem add_subtract_roundtrip_counterexample :
    let h0 := (setFromValues Heap.empty 0 (Double.ofNat 1) (Double.ofNat 1)).1
    let h1 := (setFromValues h0 1 (Double.ofNat 9007199254740992)
      (Double.ofNat 9007199254740992)).1
    let h2 := (add h1 0 1 2).1
    let h3 := (subtract h2 2 1 3).1
    h2.obj 2 = h1.obj 1 ∧ h3.obj 3 = ⟨Double.zero, Double.zero⟩ ∧
    Double.eq (h3.read 3 0) (h1.read 0 0) = false ∧
    Double.eq (h3.read 3 1) (h1.read 0 1) = false := by
  decide!

open goog.vec.vec2d in
/-- C2, amended: when `out` is not the vector `b`, the components of `a` are
binary64 numbers and both component sums `a[i] + b[i]` are exact (finite
terms, a sum that needs no rounding), `add(a,b,out)` followed by
`subtract(out,b,out2)` leaves in `out2` components that compare equal to
those `a` had. -/
theorem add_subtract_roundtrip_exact (h : Heap) (a b out out2 : Ref) (hob : out ≠ b)
    (hv : ∀ i, Double.Valid (h.read a i))
    (hex : ∀ i, Double.AddExact (h.read a i) (h.read b i)) (i : Fin 2) :
    Double.eq ((subtract (add h a b out).1 out b out2).1.read out2 i) (h.read a i) = true := by
  have hbo : b ≠ out := fun e => hob e.symm
  fin_cases i
  · simpa [add, subtract, Heap.read_write, hbo] using
      Double.sub_add_cancel_exact _ _ (hv 0) (hex 0)
  · simpa [add, subtract, Heap.read_write, hbo] using
      Double.sub_add_cancel_exact _ _ (hv 1) (hex 1)

/-! ## Linear interpolation at the endpoints -/

open goog.vec.vec2d in
/-- C3, as stated, fails: with `a = (10^16, 10^16)` and `b = (1, 1)` the
difference `1 - 10^16` rounds to `-10^16`, so `lerp(a,b,1,out)` leaves
`(0, 0)` in `out`, which does not compare equal to `b`. -/
theorem lerp_endpoints_counterexample :
    let h0 := (setFromValues Heap.empty 0 (Double.ofNat 10000000000000000)
      (Double.ofNat 10000000000000000)).1
    let h1 := (setFromValues h0 1 (Double.ofNat 1) (Double.ofNat 1)).1
    let h2 := (lerp h1 0 1 (Double.ofNat 1) 2).1
    h2.obj 2 = ⟨Double.zero, Double.zero⟩ ∧
    Double.eq (h2.read 2 0) (h1.read 1 0) = false ∧
    Double.eq (h2.read 2 1) (h1.read 1 1) = false := by
  decide!

open goog.vec.vec2d in
/-- C3, amended: component by component, `lerp(a,b,0,out)` leaves in `out` a
value that compares equal to `a[i]` when `a[i]` is a finite binary64 number
and the difference `b[i] - a[i]` is finite; `lerp(a,b,1,out)` leaves a value
that compares equal to `b[i]` when `b[i]` is a binary64 number and the
difference `b[i] - a[i]` is exact (finite terms, no rounding). The output may
be `a`, `b` or another vector. -/
theorem lerp_endpoints_exact (h : Heap) (a b out : Ref) (i : Fin 2) :
    (Double.Valid (h.read a i) → (h.read a i).isFinite = true →
      (Double.sub (h.read b i) (h.read a i)).isFinite = true →
      Double.eq ((lerp h a b Double.zero out).1.read out i) (h.read a i) = true) ∧
    (Double.Valid (h.read b i) → Double.SubExact (h.read b i) (h.read a i) →
      Double.eq ((lerp h a b Double.one out).1.read out i) (h.read b i) = true) := by
  constructor
  · intro hv hf hd
    fin_cases i
    · simpa [lerp, Heap.read_write] using Double.lerp_zero _ _ hv hf hd
    · simpa [lerp, Heap.read_write] using Double.lerp_zero _ _ hv hf hd
  · intro hv hex
    fin_cases i
    · simpa [lerp, Heap.read_write] using Double.lerp_one _ _ hv hex
    · simpa [lerp, Heap.read_write] using Double.lerp_one _ _ hv hex

/-! ## The degenerate case of `direction` -/

namespace goog.vec.vec2d

/-- The length `direction` computes is the distance between its two points. -/
theorem direction_length_eq_distance (h : Heap) (p q : Ref) :
    Double.sqrt (Double.add
      (Double.mul (Double.sub (h.read q 0) (h.read p 0)) (Double.sub (h.read q 0) (h.read p 0)))
      (Double.mul (Double.sub (h.read q 1) (h.read p 1)) (Double.sub (h.read q 1) (h.read p 1))))
    = distance h p q := by
  unfold distance distanceSquared
  simp only []
  rw [Double.sq_sub_comm (h.read q 0), Double.sq_sub_comm (h.read q 1)]

/-- What `direction` leaves in its output, by the truth value of the distance. -/
theorem direction_read (h : Heap) (p q out : Ref) (i : Fin 2) :
    (direction h p q out).1.read out i =
      if (distance h p q).truthy then
        Double.mul (Double.sub (h.read q i) (h.read p i))
          (Double.div Double.one (distance h p q))
      else Double.zero := by
  rw [← direction_length_eq_distance]
  simp only [direction]
  split_ifs <;> fin_cases i <;> simp [Heap.read_write]

/-- When the distance is zero or NaN, `direction` stores `(0,0)`. -/
theorem direction_obj_of_falsy (h : Heap) (p q out : Ref)
    (hd : (distance h p q).truthy = false) :
    (direction h p q out).1.obj out = ⟨Double.zero, Double.zero⟩ := by
  have e0 := direction_read h p q out 0
  have e1 := direction_read h p q out 1
  simp only [hd, Bool.false_eq_true, if_false] at e0 e1
  unfold Heap.read Float64Array.get at e0 e1
  simp at e0 e1
  cases hr : (direction h p q out).1.obj out
  simp_all

/-- The distance of a point from itself is zero or NaN. -/
theorem distance_self_falsy (h : Heap) (a : Ref) : (distance h a a).truthy = false := by
  rw [← direction_length_eq_distance]
  exact Double.sqrt_sq_sub_self _ _

/-- What `normalize` leaves in its output. -/
theorem normalize_read (h : Heap) (a out : Ref) (i : Fin 2) :
    (goog.vec.vec2d.normalize h a out).1.read out i =
      Double.mul (h.read a i) (Double.div Double.one (magnitude h a)) := by
  fin_cases i <;> simp [goog.vec.vec2d.normalize, Heap.read_write]

end goog.vec.vec2d

open goog.vec.vec2d in
/-- C4: `direction(a,a,out)` leaves `(0,0)` in `out` for every vector `a`
and every output vector, and so does `direction(p,q,out)` whenever
`distance(p,q)` compares equal to zero. -/
theorem direction_degenerate_zero (h : Heap) (a out : Ref) :
    (direction h a a out).1.obj out = ⟨Double.zero, Double.zero⟩ ∧
    ∀ p q : Ref, Double.eq (distance h p q) Double.zero = true →
      (direction h p q out).1.obj out = ⟨Double.zero, Double.zero⟩ := by
  constructor
  · exact direction_obj_of_falsy h a a out (distance_self_falsy h a)
  · intro p q hd
    exact direction_obj_of_falsy h p q out (Double.not_truthy_of_eq_zero _ hd)

/-! ## `direction` away from the degenerate case -/

open goog.vec.vec2d in
/-- C5, as stated, fails: from `(0,0)` to `(1,1)` the distance is not zero,
and `direction` leaves `(0.7071067811865475, 0.7071067811865475)`, whose
magnitude is `0.9999999999999999` and does not compare equal to `1`. -/
theorem direction_unit_counterexample :
    Double.eq (distance Heap.diagonal 0 1) Double.zero = false ∧
    magnitude (direction Heap.diagonal 0 1 2).1 2 =
      Double.ofRatio false 9999999999999999 10000000000000000 ∧
    Double.eq (magnitude (direction Heap.diagonal 0 1 2).1 2) Double.one = false := by
  decide!

/-! ## The distance of a point from itself -/

open goog.vec.vec2d in
/-- C6, as stated, fails: for `a = (Infinity, 0)` the difference
`Infinity - Infinity` is NaN, so `distance(a,a)` is NaN and does not compare
equal to `0`. -/
theorem distance_self_counterexample :
    Double.eq (distance (setFromValues Heap.empty 0 (Double.inf false) Double.zero).1 0 0)
      Double.zero = false := by
  decide!

open goog.vec.vec2d in
/-- C6, amended: for every vector `a` whose two components are finite,
`distance(a,a)` is `0`; when a component is NaN or infinite it is NaN. -/
theorem distance_self_finite (h : Heap) (a : Ref) :
    ((h.read a 0).isFinite = true → (h.read a 1).isFinite = true →
      distance h a a = Double.zero) ∧
    ((h.read a 0).isFinite = false ∨ (h.read a 1).isFinite = false →
      distance h a a = Double.nan) := by
  unfold distance distanceSquared
  simp only []
  constructor
  · intro h0 h1
    cases e0 : h.read a 0 with
    | nan => rw [e0] at h0; simp [Double.isFinite] at h0
    | inf s => rw [e0] at h0; simp [Double.isFinite] at h0
    | fin s n =>
      cases e1 : h.read a 1 with
      | nan => rw [e1] at h1; simp [Double.isFinite] at h1
      | inf t => rw [e1] at h1; simp [Double.isFinite] at h1
      | fin t m =>
        rw [Double.sub_self_fin, Double.sub_self_fin, Double.mul_zero_zero,
          Double.add_zero_zero, Double.sqrt_zero]
  · have hs : Double.sqrt Double.nan = Double.nan := rfl
    have hm : Double.mul Double.nan Double.nan = Double.nan := rfl
    rintro (h0 | h1)
    · rw [Double.sub_self_not_finite _ h0, hm, Double.add_nan_left, hs]
    · rw [Double.sub_self_not_finite _ h1, hm, Double.add_nan_right, hs]

/-! ## `normalize` -/

open goog.vec.vec2d in
/-- C7, as stated, fails: the magnitude of `(1,1)` is not zero, and
`normalize` leaves `(0.7071067811865475, 0.7071067811865475)`, whose
magnitude is `0.9999999999999999` and does not compare equal to `1`. -/
theorem normalize_unit_counterexample :
    Double.eq (magnitude Heap.diagonal 1) Double.zero = false ∧
    (goog.vec.vec2d.normalize Heap.diagonal 1 2).1.obj 2 =
      ⟨Double.ofRatio false 7071067811865475 10000000000000000,
       Double.ofRatio false 7071067811865475 10000000000000000⟩ ∧
    Double.eq (magnitude (goog.vec.vec2d.normalize Heap.diagonal 1 2).1 2) Double.one
      = false := by
  decide!

open goog.vec.vec2d in
/-- C8: for a vector fresh from `create()`, `normalize` returns, and leaves
NaN in both components of `out` (not a finite number), while `direction`
on that vector taken twice leaves `(0,0)`. -/
theorem normalize_zero_vector_nan (h : Heap) (out : Ref) :
    (goog.vec.vec2d.normalize (create h).1 (create h).2 out).2 = out ∧
    (∀ i, ((goog.vec.vec2d.normalize (create h).1 (create h).2 out).1.read out i) =
      Double.nan) ∧
    (∀ i, ((goog.vec.vec2d.normalize (create h).1 (create h).2 out).1.read out
      i).isFinite = false) ∧
    (direction (create h).1 (create h).2 (create h).2 out).1.obj out =
      ⟨Double.zero, Double.zero⟩ := by
  have hr : ∀ i, (create h).1.read (create h).2 i = Double.zero := by
    intro i
    fin_cases i <;> simp [create, Heap.alloc, Heap.read, Float64Array.get]
  have hm : magnitude (create h).1 (create h).2 = Double.zero := by
    unfold magnitude
    simp only [hr, Double.mul_zero_zero, Double.add_zero_zero, Double.sqrt_zero]
  have key : ∀ i, ((goog.vec.vec2d.normalize (create h).1 (create h).2 out).1.read out i) =
      Double.nan := by
    intro i
    rw [normalize_read, hm, hr, Double.div_one_zero, Double.mul_zero_inf]
  refine ⟨rfl, key, ?_, direction_obj_of_falsy _ _ _ _ (distance_self_falsy _ _)⟩
  intro i
  rw [key i]
  rfl

/-! ## `equals` -/

open goog.vec.vec2d in
/-- C9: `equals(a,b)` is true exactly when `a[0] == b[0]` and `a[1] == b[1]`,
with no tolerance; `equals((1,2),(1,2))` is true and `equals((1,2),(1,3))` is
false. -/
theorem equals_iff_components (h : Heap) (a b : Ref) :
    (equals h a b = true ↔
      (Double.eq (h.read a 0) (h.read b 0) = true ∧
       Double.eq (h.read a 1) (h.read b 1) = true)) ∧
    equals Heap.triple 0 1 = true ∧ equals Heap.triple 0 2 = false := by
  refine ⟨?_, by decide!, by decide!⟩
  simp [equals, Float64Array.length]

open goog.vec.vec2d in
/-- C10, as stated, fails: for `a = (NaN, 0)`, `equals(a,a)` is false, since
NaN does not compare equal to itself. -/
theorem equals_reflexive_counterexample :
    equals (setFromValues Heap.empty 0 Double.nan Double.zero).1 0 0 = false := by
  decide!

open goog.vec.vec2d in
/-- C10, amended: for every vector `a` with no NaN component, `equals(a,a)`
is true. -/
theorem equals_reflexive_of_no_nan (h : Heap) (a : Ref)
    (h0 : h.read a 0 ≠ Double.nan) (h1 : h.read a 1 ≠ Double.nan) :
    equals h a a = true := by
  simp [equals, Double.eq_self _ h0, Double.eq_self _ h1]

/-! ## The theorems above at concrete vectors -/

open goog.vec.vec2d in
/-- C1 at the vectors `(1,2)` and `(1,3)`, with the first as output and a third vector as temporary. -/
theorem aliasing_output_harmless_witness :
    (add Heap.triple 0 2 0).1.obj 0 = (add Heap.triple 0 2 3).1.obj 3 ∧
    (add Heap.triple 0 2 0).1.obj 0 =
      (setFromVec2d (add Heap.triple 0 2 3).1 0 3).1.obj 0 :=
  ⟨(aliasing_output_harmless Heap.triple 0 2 0 3 Double.one Double.one
      (by decide) (by decide)).1,
   (aliasing_output_harmless Heap.triple 0 2 0 3 Double.one Double.one
      (by decide) (by decide)).2.2.2.2.2.2.2⟩

open goog.vec.vec2d in
/-- C2, amended, at `a = (1,2)` and `b = (1,3)`, whose sums are exact. -/
theorem add_subtract_roundtrip_exact_witness :
    Double.eq ((subtract (add Heap.triple 0 2 3).1 3 2 4).1.read 4 1)
      (Heap.triple.read 0 1) = true :=
  add_subtract_roundtrip_exact Heap.triple 0 2 3 4 (by decide)
    (by decide!) (by decide!) 1

open goog.vec.vec2d in
/-- C3, amended, at `a = (1,2)` and `b = (1,3)`, second component. -/
theorem lerp_endpoints_exact_witness :
    Double.eq ((lerp Heap.triple 0 2 Double.zero 3).1.read 3 1) (Heap.triple.read 0 1) = true ∧
    Double.eq ((lerp Heap.triple 0 2 Double.one 3).1.read 3 1) (Heap.triple.read 2 1) = true :=
  ⟨(lerp_endpoints_exact Heap.triple 0 2 3 1).1 (by decide!) (by decide!) (by decide!),
   (lerp_endpoints_exact Heap.triple 0 2 3 1).2 (by decide!) (by decide!)⟩

open goog.vec.vec2d in
/-- C4 at two distinct vectors that both hold `(1,2)`. -/
theorem direction_degenerate_zero_witness :
    (direction Heap.triple 0 1 3).1.obj 3 = ⟨Double.zero, Double.zero⟩ :=
  (direction_degenerate_zero Heap.triple 0 3).2 0 1 (by decide!)

open goog.vec.vec2d in
/-- C6, amended, at the vector `(1,3)`. -/
theorem distance_self_finite_witness : distance Heap.triple 2 2 = Double.zero :=
  (distance_self_finite Heap.triple 2).1 (by decide!) (by decide!)

open goog.vec.vec2d in
/-- C10, amended, at the vector `(1,3)`. -/
theorem equals_reflexive_of_no_nan_witness : equals Heap.triple 2 2 = true :=
  equals_reflexive_of_no_nan Heap.triple 2 (by decide!) (by decide!)

/-! ## Negation, commutativity -/

namespace Double

theorem neg_neg (x : Double) : neg (neg x) = x := by
  cases x <;> simp [neg]

theorem add_comm (x y : Double) : add x y = add y x := by
  cases x with
  | nan => cases y <;> rfl
  | inf s =>
    cases y with
    | nan => rfl
    | inf t => cases s <;> cases t <;> rfl
    | fin t m => rfl
  | fin s n =>
    cases y with
    | nan => rfl
    | inf t => rfl
    | fin t m => rw [add_fin, add_fin, Bool.and_comm, Int.add_comm]

theorem mul_comm (x y : Double) : mul x y = mul y x := by
  cases x with
  | nan => cases y <;> rfl
  | inf s =>
    cases y with
    | nan => rfl
    | inf t => cases s <;> cases t <;> rfl
    | fin t m => simp only [mul, Bool.xor_comm]
  | fin s n =>
    cases y with
    | nan => rfl
    | inf t => simp only [mul, Bool.xor_comm]
    | fin t m => simp only [mul, Bool.xor_comm, Nat.mul_comm]

/-- A sum of squares is NaN or has positive sign, and so has its root. -/
theorem sqrt_sum_sq_sign (x y : Double) :
    sqrt (add (mul x x) (mul y y)) = nan ∨ sqrt (add (mul x x) (mul y y)) = inf false ∨
      ∃ n, sqrt (add (mul x x) (mul y y)) = fin false n := by
  have hsq : ∀ z : Double, mul z z = nan ∨ mul z z = inf false ∨ ∃ n, mul z z = fin false n := by
    intro z
    cases z with
    | nan => left; rfl
    | inf s => right; left; cases s <;> rfl
    | fin s n =>
      have e : mul (fin s n) (fin s n) = ofScaled false (n * n) unit := by
        cases s <;> rfl
      rw [e]
      unfold ofScaled
      simp only []
      split_ifs
      · right; right; exact ⟨_, rfl⟩
      · right; left; rfl
  have hadd : ∀ n m, add (fin false n) (fin false m) = inf false ∨
      ∃ k, add (fin false n) (fin false m) = fin false k := by
    intro n m
    simp only [add, if_true]
    unfold ofScaled
    simp only []
    split_ifs
    · right; exact ⟨_, rfl⟩
    · left; rfl
  have hsqrt : ∀ n, sqrt (fin false n) = fin false 0 ∨ ∃ k, sqrt (fin false n) = fin false k := by
    intro n
    unfold sqrt
    by_cases hn : n = 0
    · left; simp [hn]
    · right; simp only [hn, if_false, Bool.false_eq_true]; exact ⟨_, rfl⟩
  rcases hsq x with hx | hx | ⟨n, hx⟩ <;> rcases hsq y with hy | hy | ⟨m, hy⟩ <;> rw [hx, hy]
  · left; rfl
  · left; rfl
  · left; rfl
  · left; rfl
  · right; left; rfl
  · right; left; rfl
  · left; rfl
  · right; left; rfl
  · rcases hadd n m with h | ⟨k, h⟩ <;> rw [h]
    · right; left; rfl
    · right; right
      rcases hsqrt k with h2 | ⟨j, h2⟩
      · exact ⟨0, h2⟩
      · exact ⟨j, h2⟩

end Double

/-! ## Negation and the magnitude -/

open goog.vec.vec2d in
/-- C11: negating `a` into `tmp` and the vector returned into `tmp2` leaves
in `tmp2` the components `a` had, whichever of the three vectors coincide;
each component that is not NaN also compares equal to the one `a` had. -/
theorem negate_involution (h : Heap) (a tmp tmp2 : Ref) :
    (negate (negate h a tmp).1 (negate h a tmp).2 tmp2).1.obj tmp2 = h.obj a ∧
    ∀ i, h.read a i ≠ Double.nan →
      Double.eq ((negate (negate h a tmp).1 (negate h a tmp).2 tmp2).1.read tmp2 i)
        (h.read a i) = true := by
  have key : ∀ i, (negate (negate h a tmp).1 (negate h a tmp).2 tmp2).1.read tmp2 i =
      h.read a i := by
    intro i
    fin_cases i <;> simp [negate, Heap.read_write, Double.neg_neg]
  constructor
  · exact Heap.obj_eq_of_read _ _ _ _ (key 0) (key 1)
  · intro i hi
    rw [key i]
    exact Double.eq_self _ hi

open goog.vec.vec2d in
/-- C12: for every vector, `magnitude` is the square root of
`magnitudeSquared`, which is `a[0]*a[0] + a[1]*a[1]`. -/
theorem magnitude_eq_sqrt_magnitudeSquared (h : Heap) (a : Ref) :
    magnitude h a = Double.sqrt (magnitudeSquared h a) ∧
    magnitudeSquared h a = Double.add (Double.mul (h.read a 0) (h.read a 0))
      (Double.mul (h.read a 1) (h.read a 1)) :=
  ⟨rfl, rfl⟩

/-! ## `setFromValues`, `lerp` -/

theorem Heap.write_obj_of_ne (h : Heap) (r p : Ref) (i : Fin 2) (x : Double) (hp : p ≠ r) :
    (h.write r i x).obj p = h.obj p := by
  simp [Heap.write, hp]

theorem Heap.obj_eq_mk (h : Heap) (r : Ref) : h.obj r = ⟨h.read r 0, h.read r 1⟩ := by
  simp [Heap.read, Float64Array.get]

namespace goog.vec.vec2d

/-- What `setFromValues` leaves in its destination. -/
theorem setFromValues_read (h : Heap) (v : Ref) (x y : Double) :
    (setFromValues h v x y).1.read v 0 = x ∧ (setFromValues h v x y).1.read v 1 = y := by
  constructor <;> simp [setFromValues, Heap.read_write]

/-- What `lerp` leaves in its output. -/
theorem lerp_read (h : Heap) (a b : Ref) (f : Double) (out : Ref) (i : Fin 2) :
    (lerp h a b f out).1.read out i =
      Double.add (Double.mul (Double.sub (h.read b i) (h.read a i)) f) (h.read a i) := by
  fin_cases i <;> simp [lerp, Heap.read_write]

end goog.vec.vec2d

open goog.vec.vec2d in
/-- C13: after `setFromValues(v,3,4)` the vector holds `(3,4)` and its
magnitude is `5`; after `setFromValues(v,x,y)` the magnitude is the
square root of `x*x + y*y`, which is never a negative number (it is NaN or
has positive sign). -/
theorem setFromValues_magnitude (h : Heap) (v : Ref) (x y : Double) :
    (setFromValues h v (Double.ofNat 3) (Double.ofNat 4)).1.obj v =
      ⟨Double.ofNat 3, Double.ofNat 4⟩ ∧
    magnitude (setFromValues h v (Double.ofNat 3) (Double.ofNat 4)).1 v = Double.ofNat 5 ∧
    magnitude (setFromValues h v x y).1 v =
      Double.sqrt (Double.add (Double.mul x x) (Double.mul y y)) ∧
    (magnitude (setFromValues h v x y).1 v = Double.nan ∨
      magnitude (setFromValues h v x y).1 v = Double.inf false ∨
      ∃ n, magnitude (setFromValues h v x y).1 v = Double.fin false n) := by
  have hm : ∀ x y : Double, magnitude (setFromValues h v x y).1 v =
      Double.sqrt (Double.add (Double.mul x x) (Double.mul y y)) := by
    intro x y
    unfold magnitude
    simp only [(setFromValues_read h v x y).1, (setFromValues_read h v x y).2]
  have h5 : Double.sqrt (Double.add (Double.mul (Double.ofNat 3) (Double.ofNat 3))
      (Double.mul (Double.ofNat 4) (Double.ofNat 4))) = Double.ofNat 5 := by decide!
  refine ⟨?_, ?_, hm x y, ?_⟩
  · rw [Heap.obj_eq_mk, (setFromValues_read h v _ _).1, (setFromValues_read h v _ _).2]
  · rw [hm, h5]
  · rw [hm]
    exact Double.sqrt_sum_sq_sign x y

open goog.vec.vec2d in
/-- C14: for every factor `f`, `lerp(a,b,f,out)` leaves in each component of
`out` the value `a[i] + (b[i] - a[i]) * f`, `a` and `b` as they were before
the call; `f` is not clamped: from `(0,0)` to `(1,1)` the factor `2` gives
`(2,2)`. -/
theorem lerp_formula (h : Heap) (a b : Ref) (f : Double) (out : Ref) (i : Fin 2) :
    (lerp h a b f out).1.read out i =
      Double.add (h.read a i) (Double.mul (Double.sub (h.read b i) (h.read a i)) f) ∧
    (lerp Heap.diagonal 0 1 (Double.ofNat 2) 2).1.obj 2 = ⟨Double.ofNat 2, Double.ofNat 2⟩ := by
  refine ⟨?_, by decide!⟩
  rw [lerp_read, Double.add_comm]

/-! ## What a call leaves alone, and what it returns -/

theorem Heap.write_next (h : Heap) (r : Ref) (i : Fin 2) (x : Double) :
    (h.write r i x).next = h.next := rfl

open goog.vec.vec2d in
/-- C15: every operation that writes leaves every vector other than its
output as it was, and allocates nothing. The operations that only compute
(`magnitudeSquared`, `magnitude`, `dot`, `distanceSquared`, `distance`,
`equals`) contain no write and return a value only. -/
theorem only_output_mutated (h : Heap) (a b out r : Ref) (k f x y : Double)
    (s : Float32Array) (arr : NumberArray) (hr : r ≠ out) :
    (setFromValues h out x y).1.obj r = h.obj r ∧
    (setFromVec2d h out a).1.obj r = h.obj r ∧
    (setFromVec2f h out s).1.obj r = h.obj r ∧
    (setFromArray h out arr).1.obj r = h.obj r ∧
    (add h a b out).1.obj r = h.obj r ∧
    (subtract h a b out).1.obj r = h.obj r ∧
    (negate h a out).1.obj r = h.obj r ∧
    (scale h a k out).1.obj r = h.obj r ∧
    (goog.vec.vec2d.normalize h a out).1.obj r = h.obj r ∧
    (direction h a b out).1.obj r = h.obj r ∧
    (lerp h a b f out).1.obj r = h.obj r := by
  refine ⟨?_, ?_, ?_, ?_, ?_, ?_, ?_, ?_, ?_, ?_, ?_⟩
  · simp [setFromValues, Heap.write_obj_of_ne, hr]
  · simp [setFromVec2d, Heap.write_obj_of_ne, hr]
  · simp [setFromVec2f, Heap.write_obj_of_ne, hr]
  · simp [setFromArray, Heap.write_obj_of_ne, hr]
  · simp [add, Heap.write_obj_of_ne, hr]
  · simp [subtract, Heap.write_obj_of_ne, hr]
  · simp [negate, Heap.write_obj_of_ne, hr]
  · simp [scale, Heap.write_obj_of_ne, hr]
  · simp [goog.vec.vec2d.normalize, Heap.write_obj_of_ne, hr]
  · simp only [direction]
    split_ifs <;> simp [Heap.write_obj_of_ne, hr]
  · simp [lerp, Heap.write_obj_of_ne, hr]

theorem Heap.obj_write_write (h : Heap) (r : Ref) (x y : Double) :
    ((h.write r 0 x).write r 1 y).obj r = ⟨x, y⟩ := by
  simp [Heap.write, Float64Array.set]

theorem Heap.obj_write_write_rev (h : Heap) (r : Ref) (x y : Double) :
    ((h.write r 1 y).write r 0 x).obj r = ⟨x, y⟩ := by
  simp [Heap.write, Float64Array.set]

open goog.vec.vec2d in
/-- C16: each of the eleven operations that write returns the reference it
was given as destination, and the vector behind it then holds the two
components the operation computed from the arguments as they were before
the call. -/
theorem mutators_return_destination (h : Heap) (a b out : Ref) (k f x y : Double)
    (s : Float32Array) (arr : NumberArray) :
    (setFromValues h out x y).2 = out ∧
    (setFromValues h out x y).1.obj out = ⟨x, y⟩ ∧
    (setFromVec2d h out a).2 = out ∧
    (setFromVec2d h out a).1.obj out = h.obj a ∧
    (setFromVec2f h out s).2 = out ∧
    (setFromVec2f h out s).1.obj out = ⟨s.get 0, s.get 1⟩ ∧
    (setFromArray h out arr).2 = out ∧
    (setFromArray h out arr).1.obj out = ⟨arr.stored 0, arr.stored 1⟩ ∧
    (add h a b out).2 = out ∧
    (add h a b out).1.obj out =
      ⟨Double.add (h.read a 0) (h.read b 0), Double.add (h.read a 1) (h.read b 1)⟩ ∧
    (subtract h a b out).2 = out ∧
    (subtract h a b out).1.obj out =
      ⟨Double.sub (h.read a 0) (h.read b 0), Double.sub (h.read a 1) (h.read b 1)⟩ ∧
    (negate h a out).2 = out ∧
    (negate h a out).1.obj out = ⟨Double.neg (h.read a 0), Double.neg (h.read a 1)⟩ ∧
    (scale h a k out).2 = out ∧
    (scale h a k out).1.obj out = ⟨Double.mul (h.read a 0) k, Double.mul (h.read a 1) k⟩ ∧
    (goog.vec.vec2d.normalize h a out).2 = out ∧
    (goog.vec.vec2d.normalize h a out).1.obj out =
      ⟨Double.mul (h.read a 0) (Double.div Double.one (magnitude h a)),
       Double.mul (h.read a 1) (Double.div Double.one (magnitude h a))⟩ ∧
    (direction h a b out).2 = out ∧
    (direction h a b out).1.obj out =
      (if (distance h a b).truthy then
        ⟨Double.mul (Double.sub (h.read b 0) (h.read a 0)) (Double.div Double.one (distance h a b)),
         Double.mul (Double.sub (h.read b 1) (h.read a 1)) (Double.div Double.one (distance h a b))⟩
       else ⟨Double.zero, Double.zero⟩) ∧
    (lerp h a b f out).2 = out ∧
    (lerp h a b f out).1.obj out =
      ⟨Double.add (Double.mul (Double.sub (h.read b 0) (h.read a 0)) f) (h.read a 0),
       Double.add (Double.mul (Double.sub (h.read b 1) (h.read a 1)) f) (h.read a 1)⟩ := by
  refine ⟨rfl, ?_, rfl, ?_, rfl, ?_, rfl, ?_, rfl, ?_, rfl, ?_, rfl, ?_, rfl, ?_, rfl, ?_,
    ?_, ?_, rfl, ?_⟩
  · exact Heap.obj_write_write _ _ _ _
  · rw [Heap.obj_eq_mk h a, Heap.obj_eq_mk _ out]
    simp [setFromVec2d, Heap.read_write]
  · exact Heap.obj_write_write _ _ _ _
  · exact Heap.obj_write_write _ _ _ _
  · rw [Heap.obj_eq_mk _ out]; simp [add, Heap.read_write]
  · rw [Heap.obj_eq_mk _ out]; simp [subtract, Heap.read_write]
  · rw [Heap.obj_eq_mk _ out]; simp [negate, Heap.read_write]
  · rw [Heap.obj_eq_mk _ out]; simp [scale, Heap.read_write]
  · rw [Heap.obj_eq_mk _ out, normalize_read, normalize_read]
  · simp only [direction]; split_ifs <;> rfl
  · rw [Heap.obj_eq_mk _ out, direction_read, direction_read]
    split_ifs <;> rfl
  · rw [Heap.obj_eq_mk _ out]; simp [lerp, Heap.read_write]

/-! ## `direction`, `distance` and `dot` against the other operations -/

namespace goog.vec.vec2d

/-- What `subtract` leaves in its output. -/
theorem subtract_read (h : Heap) (a b out : Ref) (i : Fin 2) :
    (subtract h a b out).1.read out i = Double.sub (h.read a i) (h.read b i) := by
  fin_cases i <;> simp [subtract, Heap.read_write]

/-- The magnitude of a difference stored by `subtract` is the length
`direction` computes. -/
theorem magnitude_subtract (h : Heap) (p q tmp : Ref) :
    magnitude (subtract h q p tmp).1 tmp = distance h p q := by
  rw [← direction_length_eq_distance]
  unfold magnitude
  simp only [subtract_read]

end goog.vec.vec2d

open goog.vec.vec2d in
/-- C17: when `distance(p,q)` is neither zero nor NaN, `direction(p,q,out)`
writes the components that `normalize(subtract(q,p,tmp),out)` writes,
whatever vectors `tmp` and `out` are; otherwise `direction` writes `(0,0)`. -/
theorem direction_eq_normalize_subtract (h : Heap) (p q tmp out : Ref) :
    ((distance h p q).truthy = true →
      (direction h p q out).1.obj out =
        (goog.vec.vec2d.normalize (subtract h q p tmp).1 (subtract h q p tmp).2 out).1.obj out) ∧
    ((distance h p q).truthy = false →
      (direction h p q out).1.obj out = ⟨Double.zero, Double.zero⟩) := by
  constructor
  · intro hd
    have e : (subtract h q p tmp).2 = tmp := rfl
    rw [e]
    apply Heap.obj_eq_of_read <;>
      rw [direction_read, normalize_read, magnitude_subtract, subtract_read, hd] <;> rfl
  · exact direction_obj_of_falsy h p q out

open goog.vec.vec2d in
/-- C18: `distanceSquared(a,b)` is `distanceSquared(b,a)` and is
`magnitudeSquared` of the difference `subtract(a,b,tmp)` stores, and
`distance(a,b)` is `distance(b,a)`. -/
theorem distance_symmetric (h : Heap) (a b tmp : Ref) :
    distanceSquared h a b = distanceSquared h b a ∧
    distanceSquared h a b = magnitudeSquared (subtract h a b tmp).1 (subtract h a b tmp).2 ∧
    distance h a b = distance h b a := by
  have hs : distanceSquared h a b = distanceSquared h b a := by
    unfold distanceSquared
    simp only []
    rw [Double.sq_sub_comm (h.read a 0), Double.sq_sub_comm (h.read a 1)]
  refine ⟨hs, ?_, ?_⟩
  · have e : (subtract h a b tmp).2 = tmp := rfl
    rw [e]
    unfold magnitudeSquared distanceSquared
    simp only [subtract_read]
  · unfold distance
    rw [hs]

open goog.vec.vec2d in
/-- C19: `dot(a,b)` is `dot(b,a)`, and `dot(a,a)` is `magnitudeSquared(a)`. -/
theorem dot_commutative (h : Heap) (a b : Ref) :
    dot h a b = dot h b a ∧ dot h a a = magnitudeSquared h a := by
  constructor
  · unfold dot
    rw [Double.mul_comm (h.read a 0), Double.mul_comm (h.read a 1)]
  · rfl

/-! ## The later theorems at concrete vectors -/

open goog.vec.vec2d in
/-- C11 at the vector `(1,3)`, second component. -/
theorem negate_involution_witness :
    Double.eq ((negate (negate Heap.triple 2 3).1 (negate Heap.triple 2 3).2 4).1.read 4 1)
      (Heap.triple.read 2 1) = true :=
  (negate_involution Heap.triple 2 3 4).2 1 (by decide!)

open goog.vec.vec2d in
/-- C15 at `add(a,b,a)` with `a = (1,2)` and `b = (1,3)`: `b` is left as it was. -/
theorem only_output_mutated_witness :
    (add Heap.triple 0 2 0).1.obj 2 = Heap.triple.obj 2 :=
  (only_output_mutated Heap.triple 0 2 0 2 Double.one Double.one Double.one Double.one
    ⟨Double.one, Double.one⟩ [] (by decide)).2.2.2.2.1

open goog.vec.vec2d in
/-- C17 from `(0,0)` to `(1,1)`. -/
theorem direction_eq_normalize_subtract_witness :
    (direction Heap.diagonal 0 1 3).1.obj 3 =
      (goog.vec.vec2d.normalize (subtract Heap.diagonal 1 0 2).1
        (subtract Heap.diagonal 1 0 2).2 3).1.obj 3 :=
  (direction_eq_normalize_subtract Heap.diagonal 0 1 2 3).1 (by decide!)

/-! ## Rounding error over the reals

Magnitudes are read as real values, `n` units being `n / 2^1074`. A rounding
has a relative error of at most `2^-53` and an absolute error of at most half
a unit, `2^-1075`. -/

namespace Double

/-- The grid step of `roundScaled`, times `2^52`, is at most the quotient
plus `2^52`. -/
theorem step_le (q : Nat) : 2 ^ (bitLen q - 53) * 2 ^ 52 ≤ q + 2 ^ 52 := by
  by_cases h : bitLen q ≤ 53
  · have e : bitLen q - 53 = 0 := by omega
    rw [e]; omega
  · have h0 : q ≠ 0 := by
      intro e; subst e; simp [bitLen, bitLenAux_zero] at h
    have h1 := two_pow_bitLen_le q h0
    have e : bitLen q - 53 + 52 = bitLen q - 1 := by omega
    rw [← Nat.pow_add, e]
    omega

/-- Rounding error of `roundScaled`, in integers: `2^53` times the error is
at most the exact numerator plus `2^52` denominators. -/
theorem roundScaled_err_nat (num den : Nat) (hden : 0 < den) :
    2 ^ 53 * (num - roundScaled num den * den) ≤ num + den * 2 ^ 52 ∧
    2 ^ 53 * (roundScaled num den * den - num) ≤ num + den * 2 ^ 52 := by
  have hn := roundScaled_nearest num den hden
  have hs := step_le (num / den)
  have hq : num / den * den ≤ num := Nat.div_mul_le_self num den
  have key : den * 2 ^ (bitLen (num / den) - 53) * 2 ^ 52 ≤ num + den * 2 ^ 52 := by
    have := Nat.mul_le_mul_left den hs
    rw [Nat.mul_add, ← Nat.mul_assoc] at this
    have e : den * (num / den) = num / den * den := Nat.mul_comm _ _
    omega
  constructor
  · have := Nat.mul_le_mul_right (2 ^ 52) hn.1
    omega
  · have := Nat.mul_le_mul_right (2 ^ 52) hn.2
    omega

/-- Rounding error of `roundScaled` over the reals: a relative error of
`2^-53` and at most half a unit. -/
theorem roundScaled_err (num den : Nat) (hden : 0 < den) :
    |(roundScaled num den : ℝ) - (num : ℝ) / den| ≤ (num : ℝ) / den / 2 ^ 53 + 1 / 2 := by
  obtain ⟨h1, h2⟩ := roundScaled_err_nat num den hden
  have hd : (0 : ℝ) < den := by exact_mod_cast hden
  have key : |(roundScaled num den : ℝ) * den - num| * 2 ^ 53 ≤ num + den * 2 ^ 52 := by
    rcases Nat.le_total (roundScaled num den * den) num with h | h
    · have e : (roundScaled num den * den - num : ℕ) = 0 := Nat.sub_eq_zero_of_le h
      have h1' : ((2 ^ 53 * (num - roundScaled num den * den) : ℕ) : ℝ) ≤
          ((num + den * 2 ^ 52 : ℕ) : ℝ) := by exact_mod_cast h1
      rw [Nat.cast_mul, Nat.cast_sub h] at h1'
      push_cast at h1'
      have hle : (roundScaled num den : ℝ) * den ≤ num := by exact_mod_cast h
      rw [abs_of_nonpos (by linarith)]
      linarith
    · have h2' : ((2 ^ 53 * (roundScaled num den * den - num) : ℕ) : ℝ) ≤
          ((num + den * 2 ^ 52 : ℕ) : ℝ) := by exact_mod_cast h2
      rw [Nat.cast_mul, Nat.cast_sub h] at h2'
      push_cast at h2'
      have hle : (num : ℝ) ≤ (roundScaled num den : ℝ) * den := by exact_mod_cast h
      rw [abs_of_nonneg (by linarith)]
      linarith
  have e : (roundScaled num den : ℝ) - (num : ℝ) / den =
      ((roundScaled num den : ℝ) * den - num) / den := by
    field_simp
  rw [e, abs_div, abs_of_pos hd, div_le_iff hd]
  have e2 : ((num : ℝ) / den / 2 ^ 53 + 1 / 2) * den = (num + den * 2 ^ 52) / 2 ^ 53 := by
    field_simp; ring
  rw [e2, le_div_iff (by positivity)]
  exact key

/-- The result of `roundScaled` is below the overflow bound when the exact
quotient is below `2^2097` units. -/
theorem roundScaled_lt_limit (num den : Nat) (h : num < den * 2 ^ 2097) :
    roundScaled num den < limit := by
  have hden : 0 < den := by
    rcases Nat.eq_zero_or_pos den with e | e
    · subst e; simp at h
    · exact e
  have hq : num / den < 2 ^ 2097 := by
    rw [Nat.div_lt_iff_lt_mul hden, Nat.mul_comm]; exact h
  have hb : bitLen (num / den) ≤ 2097 := bitLen_le_of_lt _ _ hq
  have hhi : num / (den * 2 ^ (bitLen (num / den) - 53)) < 2 ^ 53 := by
    rw [← Nat.div_div_eq_div_mul]
    exact div_pow_bitLen_lt _
  unfold roundScaled limit
  simp only []
  have h1 : (if (decide (den * 2 ^ (bitLen (num / den) - 53) <
      2 * (num % (den * 2 ^ (bitLen (num / den) - 53)))) ||
      (2 * (num % (den * 2 ^ (bitLen (num / den) - 53))) ==
        den * 2 ^ (bitLen (num / den) - 53) &&
      num / (den * 2 ^ (bitLen (num / den) - 53)) % 2 == 1)) = true
      then num / (den * 2 ^ (bitLen (num / den) - 53)) + 1
      else num / (den * 2 ^ (bitLen (num / den) - 53))) ≤ 2 ^ 53 := by
    split_ifs <;> omega
  have h2 := Nat.mul_le_mul_right (2 ^ (bitLen (num / den) - 53)) h1
  have h3 : 2 ^ 53 * 2 ^ (bitLen (num / den) - 53) ≤ 2 ^ 2097 := by
    rw [← Nat.pow_add]
    exact Nat.pow_le_pow_right (by decide) (by omega)
  have h4 : 2 ^ 2097 < 2 ^ 2098 := Nat.pow_lt_pow_right (by decide) (by decide)
  exact Nat.lt_of_le_of_lt (Nat.le_trans h2 h3) h4

/-- A rounding that does not overflow, with its error. -/
theorem ofScaled_err (s : Bool) (num den : Nat) (h : num < den * 2 ^ 2097) :
    ∃ c, ofScaled s num den = fin s c ∧
      |(c : ℝ) - (num : ℝ) / den| ≤ (num : ℝ) / den / 2 ^ 53 + 1 / 2 := by
  have hden : 0 < den := by
    rcases Nat.eq_zero_or_pos den with e | e
    · subst e; simp at h
    · exact e
  refine ⟨roundScaled num den, ?_, roundScaled_err num den hden⟩
  unfold ofScaled
  simp only [roundScaled_lt_limit num den h, if_true]

end Double

/-- A root rounded to within half a grid step `G`, the grid step being at
most `2^-52` of the root, has a relative error of at most `2^-53`. -/
theorem sqrt_alg (A G C Z : ℝ) (hA : 0 ≤ A) (hG : 0 ≤ G) (hC : 0 ≤ C)
    (hZC : 2 * C - G ≤ Z) (h1 : Z ^ 2 ≤ 4 * A) (h2 : 4 * A ≤ (2 * C + G) ^ 2)
    (hg : G ^ 2 * 2 ^ 104 ≤ A) :
    (1 - 1 / 2 ^ 53) ^ 2 * A ≤ C ^ 2 ∧ C ^ 2 ≤ (1 + 1 / 2 ^ 53) ^ 2 * A := by
  constructor
  · -- G ≤ u * (2C + G)
    have hW : 0 ≤ 2 * C + G := by linarith
    have hgw : G ≤ (2 * C + G) / 2 ^ 53 := by
      by_contra hc
      have hc' : (2 * C + G) / 2 ^ 53 < G := lt_of_not_le hc
      have h3 : ((2 * C + G) / 2 ^ 53) ^ 2 < G ^ 2 :=
        pow_lt_pow_left hc' (by positivity) (by norm_num)
      have h4 : ((2 * C + G) / 2 ^ 53) ^ 2 = (2 * C + G) ^ 2 / 2 ^ 106 := by
        rw [div_pow]; norm_num
      rw [h4] at h3
      have h5 : (2 * C + G) ^ 2 / 2 ^ 106 * 2 ^ 106 = (2 * C + G) ^ 2 := by
        field_simp
      nlinarith
    have h6 : (1 - 1 / 2 ^ 53) * (2 * C + G) ≤ 2 * C := by linarith
    have h7 : ((1 - 1 / 2 ^ 53) * (2 * C + G)) ^ 2 ≤ (2 * C) ^ 2 :=
      pow_le_pow_left (mul_nonneg (by norm_num) hW) h6 2
    have h8 : ((1 - 1 / 2 ^ 53) * (2 * C + G)) ^ 2 = (1 - 1 / 2 ^ 53) ^ 2 * (2 * C + G) ^ 2 := by
      ring
    have h9 : (1 - 1 / 2 ^ 53 : ℝ) ^ 2 * (4 * A) ≤ (1 - 1 / 2 ^ 53) ^ 2 * (2 * C + G) ^ 2 :=
      mul_le_mul_of_nonneg_left h2 (by positivity)
    nlinarith
  · -- Z * G ≤ 4 u A
    have hzg : Z * G ≤ 4 * A / 2 ^ 53 := by
      have h3 : (Z * G) ^ 2 ≤ (4 * A / 2 ^ 53) ^ 2 := by
        have e1 : (Z * G) ^ 2 = Z ^ 2 * G ^ 2 := by ring
        have e2 : (4 * A / 2 ^ 53) ^ 2 = 4 * A * (4 * A / 2 ^ 106) := by
          rw [div_pow]; field_simp; ring
        rw [e1, e2]
        have h4 : G ^ 2 ≤ 4 * A / 2 ^ 106 := by
          rw [le_div_iff (by positivity)]; linarith
        exact mul_le_mul h1 h4 (by positivity) (by positivity)
      exact (abs_le_of_sq_le_sq' h3 (by positivity)).2
    have h5 : 2 * C ≤ Z + G := by linarith
    have h6 : (2 * C) ^ 2 ≤ (Z + G) ^ 2 := pow_le_pow_left (by linarith) h5 2
    have h7 : G ^ 2 ≤ 4 * A / 2 ^ 106 := by
      rw [le_div_iff (by positivity)]; linarith
    have h8 : (Z + G) ^ 2 = Z ^ 2 + 2 * (Z * G) + G ^ 2 := by ring
    have h9 : (1 + 1 / 2 ^ 53 : ℝ) ^ 2 * A = A + 2 * A / 2 ^ 53 + A / 2 ^ 106 := by
      field_simp; ring
    rw [h9]
    have h10 : (2 * C) ^ 2 = 4 * C ^ 2 := by ring
    linarith

namespace Double

theorem unit_cast : ((unit : ℕ) : ℝ) = 2 ^ 1074 := by
  unfold unit; rw [Nat.cast_pow]; rfl

/-- A product of two finite numbers that stays below `2^1023`, with its
rounding error, all magnitudes as real values. -/
theorem mul_err (s t : Bool) (a b : Nat)
    (h : (a : ℝ) / 2 ^ 1074 * ((b : ℝ) / 2 ^ 1074) < 2 ^ 1023) :
    ∃ c, mul (fin s a) (fin t b) = fin (xor s t) c ∧
      |(c : ℝ) / 2 ^ 1074 - (a : ℝ) / 2 ^ 1074 * ((b : ℝ) / 2 ^ 1074)| ≤
        (a : ℝ) / 2 ^ 1074 * ((b : ℝ) / 2 ^ 1074) / 2 ^ 53 + 1 / 2 ^ 1075 := by
  have hlt : a * b < unit * 2 ^ 2097 := by
    have h1 : ((a * b : ℕ) : ℝ) < ((unit * 2 ^ 2097 : ℕ) : ℝ) := by
      rw [Nat.cast_mul, Nat.cast_mul, Nat.cast_pow, Nat.cast_ofNat, unit_cast]
      have e : (a : ℝ) * b = (a : ℝ) / 2 ^ 1074 * ((b : ℝ) / 2 ^ 1074) * (2 ^ 1074 * 2 ^ 1074) := by
        field_simp
      rw [e]
      have e2 : (2 : ℝ) ^ 1074 * 2 ^ 2097 = 2 ^ 1023 * (2 ^ 1074 * 2 ^ 1074) := by norm_num
      rw [e2]
      exact mul_lt_mul_of_pos_right h (by positivity)
    exact Nat.cast_lt.mp h1
  obtain ⟨c, hc, he⟩ := ofScaled_err (xor s t) (a * b) unit hlt
  refine ⟨c, by simp only [mul, hc], ?_⟩
  rw [unit_cast, Nat.cast_mul] at he
  have e : (c : ℝ) / 2 ^ 1074 - (a : ℝ) / 2 ^ 1074 * ((b : ℝ) / 2 ^ 1074) =
      ((c : ℝ) - (a : ℝ) * b / 2 ^ 1074) / 2 ^ 1074 := by
    field_simp; ring
  rw [e, abs_div, abs_of_pos (by positivity : (0 : ℝ) < 2 ^ 1074), div_le_iff (by positivity)]
  have e2 : ((a : ℝ) / 2 ^ 1074 * ((b : ℝ) / 2 ^ 1074) / 2 ^ 53 + 1 / 2 ^ 1075) * 2 ^ 1074 =
      (a : ℝ) * b / 2 ^ 1074 / 2 ^ 53 + 1 / 2 := by
    field_simp; ring
  rw [e2]
  exact he

/-- A sum of two non-negative finite numbers that stays below `2^1023`, with
its rounding error. -/
theorem add_err (a b : Nat) (h : (a : ℝ) / 2 ^ 1074 + (b : ℝ) / 2 ^ 1074 < 2 ^ 1023) :
    ∃ c, add (fin false a) (fin false b) = fin false c ∧
      |(c : ℝ) / 2 ^ 1074 - ((a : ℝ) / 2 ^ 1074 + (b : ℝ) / 2 ^ 1074)| ≤
        ((a : ℝ) / 2 ^ 1074 + (b : ℝ) / 2 ^ 1074) / 2 ^ 53 + 1 / 2 ^ 1075 := by
  have hlt : a + b < 1 * 2 ^ 2097 := by
    have h1 : ((a + b : ℕ) : ℝ) < ((1 * 2 ^ 2097 : ℕ) : ℝ) := by
      rw [Nat.cast_add, Nat.cast_mul, Nat.cast_one, Nat.cast_pow, Nat.cast_ofNat]
      have e : (a : ℝ) + b = ((a : ℝ) / 2 ^ 1074 + (b : ℝ) / 2 ^ 1074) * 2 ^ 1074 := by
        field_simp
      rw [e]
      have e2 : (1 : ℝ) * 2 ^ 2097 = 2 ^ 1023 * 2 ^ 1074 := by norm_num
      rw [e2]
      exact mul_lt_mul_of_pos_right h (by positivity)
    exact Nat.cast_lt.mp h1
  obtain ⟨c, hc, he⟩ := ofScaled_err false (a + b) 1 hlt
  refine ⟨c, by simp only [add, if_true, hc], ?_⟩
  rw [Nat.cast_add, Nat.cast_one] at he
  have e : (c : ℝ) / 2 ^ 1074 - ((a : ℝ) / 2 ^ 1074 + (b : ℝ) / 2 ^ 1074) =
      ((c : ℝ) - ((a : ℝ) + b) / 1) / 2 ^ 1074 := by
    field_simp
  rw [e, abs_div, abs_of_pos (by positivity : (0 : ℝ) < 2 ^ 1074), div_le_iff (by positivity)]
  have e2 : (((a : ℝ) / 2 ^ 1074 + (b : ℝ) / 2 ^ 1074) / 2 ^ 53 + 1 / 2 ^ 1075) * 2 ^ 1074 =
      ((a : ℝ) + b) / 1 / 2 ^ 53 + 1 / 2 := by
    field_simp; ring
  rw [e2]
  exact he

/-- The reciprocal of a positive finite number above `2^-1023`, with its
rounding error, as a bound on the product with the number. -/
theorem div_one_err (n : Nat) (h : 1 / 2 ^ 1023 < (n : ℝ) / 2 ^ 1074) :
    ∃ c, div one (fin false n) = fin false c ∧
      |(c : ℝ) / 2 ^ 1074 * ((n : ℝ) / 2 ^ 1074) - 1| ≤
        1 / 2 ^ 53 + (n : ℝ) / 2 ^ 1074 / 2 ^ 1075 := by
  have hn0 : n ≠ 0 := by
    intro e; subst e; norm_num at h
  have hnpos : (0 : ℝ) < n := by exact_mod_cast Nat.pos_of_ne_zero hn0
  have hlt : unit * unit < n * 2 ^ 2097 := by
    have h1 : ((unit * unit : ℕ) : ℝ) < ((n * 2 ^ 2097 : ℕ) : ℝ) := by
      rw [Nat.cast_mul, Nat.cast_mul, Nat.cast_pow, Nat.cast_ofNat, unit_cast]
      rw [div_lt_div_iff (by positivity) (by positivity)] at h
      have e2 : (n : ℝ) * 2 ^ 2097 = (n : ℝ) * 2 ^ 1023 * 2 ^ 1074 := by
        rw [mul_assoc]; norm_num
      rw [e2]
      have := mul_lt_mul_of_pos_right h (by positivity : (0 : ℝ) < 2 ^ 1074)
      linarith
    exact Nat.cast_lt.mp h1
  obtain ⟨c, hc, he⟩ := ofScaled_err false (unit * unit) n hlt
  refine ⟨c, by simp only [div, one, hn0, if_false, Bool.xor_false, hc], ?_⟩
  rw [Nat.cast_mul, unit_cast] at he
  have e : (c : ℝ) / 2 ^ 1074 * ((n : ℝ) / 2 ^ 1074) - 1 =
      ((c : ℝ) - 2 ^ 1074 * 2 ^ 1074 / n) * (n / (2 ^ 1074 * 2 ^ 1074)) := by
    field_simp
  rw [e, abs_mul, abs_of_pos (by positivity : (0 : ℝ) < n / (2 ^ 1074 * 2 ^ 1074))]
  have e2 : 1 / 2 ^ 53 + (n : ℝ) / 2 ^ 1074 / 2 ^ 1075 =
      ((2 : ℝ) ^ 1074 * 2 ^ 1074 / n / 2 ^ 53 + 1 / 2) * (n / (2 ^ 1074 * 2 ^ 1074)) := by
    field_simp; ring
  rw [e2]
  exact mul_le_mul_of_nonneg_right he (by positivity)

end Double

namespace Double

theorem isqrt_unit_ge (n : Nat) (hn : n ≠ 0) : 2 ^ 537 ≤ isqrt (n * unit) := by
  by_contra hc
  have h1 : isqrt (n * unit) + 1 ≤ 2 ^ 537 := by omega
  have h2 := Nat.mul_self_le_mul_self h1
  have h3 := lt_succ_isqrt_sq (n * unit)
  have h4 : (2 : Nat) ^ 537 * 2 ^ 537 = unit := by
    unfold unit; rw [← Nat.pow_add]
  have h5 : unit ≤ n * unit := Nat.le_mul_of_pos_left _ (Nat.pos_of_ne_zero hn)
  omega

/-- The grid step `sqrt` rounds at is at most `2^-52` of the root. -/
theorem sqrt_step_sq_le (n : Nat) (hn : n ≠ 0) :
    (2 ^ (bitLen (isqrt (n * unit)) - 53)) ^ 2 * 2 ^ 104 ≤ n * unit := by
  have h0 := isqrt_unit_ge n hn
  have hr0 : isqrt (n * unit) ≠ 0 := by
    have : 0 < 2 ^ 537 := Nat.pow_pos (by decide)
    omega
  have h1 := two_pow_bitLen_le _ hr0
  have hb : 538 ≤ bitLen (isqrt (n * unit)) := by
    have h2 := lt_two_pow_bitLen (isqrt (n * unit))
    have h3 : 2 ^ 537 < 2 ^ bitLen (isqrt (n * unit)) := Nat.lt_of_le_of_lt h0 h2
    have := (Nat.pow_lt_pow_iff_right (by decide : 1 < 2)).mp h3
    omega
  have e : (2 ^ (bitLen (isqrt (n * unit)) - 53)) ^ 2 * 2 ^ 104 =
      2 ^ (bitLen (isqrt (n * unit)) - 1) * 2 ^ (bitLen (isqrt (n * unit)) - 1) := by
    rw [← Nat.pow_mul, ← Nat.pow_add, ← Nat.pow_add]
    congr 1; omega
  rw [e]
  exact Nat.le_trans (Nat.mul_self_le_mul_self h1) (isqrt_sq_le _)

/-- The square root of a positive finite number, with its rounding error:
a relative error of at most `2^-53`. -/
theorem sqrt_err (n : Nat) (hn : n ≠ 0) :
    ∃ c, sqrt (fin false n) = fin false c ∧
      (1 - 1 / 2 ^ 53) ^ 2 * ((n : ℝ) / 2 ^ 1074) ≤ ((c : ℝ) / 2 ^ 1074) ^ 2 ∧
      ((c : ℝ) / 2 ^ 1074) ^ 2 ≤ (1 + 1 / 2 ^ 53) ^ 2 * ((n : ℝ) / 2 ^ 1074) := by
  obtain ⟨c, hs, h1, h2⟩ := sqrt_nearest n hn
  have h3 := sqrt_step_sq_le n hn
  refine ⟨c, hs, ?_⟩
  generalize 2 ^ (bitLen (isqrt (n * unit)) - 53) = g at h1 h2 h3
  have hz : 2 * c ≤ (2 * c - g) + g := by omega
  have r1 : (((2 * c - g) ^ 2 : ℕ) : ℝ) ≤ ((4 * (n * unit) : ℕ) : ℝ) := Nat.cast_le.mpr h1
  have r2 : ((4 * (n * unit) : ℕ) : ℝ) ≤ (((2 * c + g) ^ 2 : ℕ) : ℝ) := Nat.cast_le.mpr h2
  have r3 : ((g ^ 2 * 2 ^ 104 : ℕ) : ℝ) ≤ ((n * unit : ℕ) : ℝ) := Nat.cast_le.mpr h3
  have r4 : ((2 * c : ℕ) : ℝ) ≤ (((2 * c - g) + g : ℕ) : ℝ) := Nat.cast_le.mpr hz
  rw [Nat.cast_pow] at r1
  rw [Nat.cast_mul, Nat.cast_mul, Nat.cast_ofNat, unit_cast] at r1 r2
  rw [Nat.cast_pow, Nat.cast_add, Nat.cast_mul, Nat.cast_ofNat] at r2
  rw [Nat.cast_mul, Nat.cast_pow, Nat.cast_pow, Nat.cast_ofNat, Nat.cast_mul, unit_cast] at r3
  rw [Nat.cast_mul, Nat.cast_ofNat, Nat.cast_add] at r4
  have key := sqrt_alg ((n : ℝ) * 2 ^ 1074) (g : ℝ) (c : ℝ) (((2 * c - g : ℕ)) : ℝ)
    (by positivity) (Nat.cast_nonneg g) (Nat.cast_nonneg c)
    (by linarith) r1 r2 r3
  have e1 : ((c : ℝ) / 2 ^ 1074) ^ 2 = (c : ℝ) ^ 2 / (2 ^ 1074 * 2 ^ 1074) := by
    rw [div_pow]; ring
  have e2 : ∀ k : ℝ, k * ((n : ℝ) / 2 ^ 1074) = k * ((n : ℝ) * 2 ^ 1074) / (2 ^ 1074 * 2 ^ 1074) := by
    intro k; field_simp; ring
  rw [e1, e2, e2]
  exact ⟨div_le_div_of_nonneg_right key.1 (by positivity),
    div_le_div_of_nonneg_right key.2 (by positivity)⟩

end Double

/-- Error of a rounded sum of two rounded squares. -/
theorem sumsq_alg (X Y sx sy s : ℝ)
    (h1 : |sx - X| ≤ X / 2 ^ 53 + 1 / 2 ^ 1075) (h2 : |sy - Y| ≤ Y / 2 ^ 53 + 1 / 2 ^ 1075)
    (h3 : |s - (sx + sy)| ≤ (sx + sy) / 2 ^ 53 + 1 / 2 ^ 1075)
    (hL : 1 / 2 ^ 1000 ≤ X + Y) :
    (1 - 201 / 100 / 2 ^ 53) * (X + Y) ≤ s ∧ s ≤ (1 + 201 / 100 / 2 ^ 53) * (X + Y) := by
  rw [abs_le] at h1 h2 h3
  obtain ⟨h1a, h1b⟩ := h1
  obtain ⟨h2a, h2b⟩ := h2
  obtain ⟨h3a, h3b⟩ := h3
  constructor <;> linarith

/-- Error of the rounded root of such a sum. -/
theorem root_alg (N s d : ℝ) (hN : 0 ≤ N)
    (hs1 : (1 - 201 / 100 / 2 ^ 53) * N ≤ s) (hs2 : s ≤ (1 + 201 / 100 / 2 ^ 53) * N)
    (h4 : (1 - 1 / 2 ^ 53) ^ 2 * s ≤ d ^ 2) (h5 : d ^ 2 ≤ (1 + 1 / 2 ^ 53) ^ 2 * s) :
    (1 - 402 / 100 / 2 ^ 53) * N ≤ d ^ 2 ∧ d ^ 2 ≤ (1 + 402 / 100 / 2 ^ 53) * N := by
  constructor <;> linarith

/-- Squaring a product rounded with relative error `2^-53` and absolute
error `2^-1075`, the product being at most 2 in size. -/
theorem sq_round_alg (p o : ℝ) (hp : p ^ 2 ≤ 4)
    (h : |o - p| ≤ |p| / 2 ^ 53 + 1 / 2 ^ 1075) :
    |o ^ 2 - p ^ 2| ≤ 201 / 100 / 2 ^ 53 * p ^ 2 + 5 / 2 ^ 1075 := by
  have hA0 : 0 ≤ |p| := abs_nonneg p
  have hA2 : |p| ≤ 2 := by
    have h2 : |p| ^ 2 ≤ 2 ^ 2 := by rw [sq_abs]; linarith
    exact (abs_le_of_sq_le_sq' h2 (by norm_num)).2
  have hB0 : 0 ≤ |o - p| := abs_nonneg _
  have e : o ^ 2 - p ^ 2 = 2 * p * (o - p) + (o - p) ^ 2 := by ring
  rw [e]
  have t1 : |2 * p * (o - p) + (o - p) ^ 2| ≤ 2 * |p| * |o - p| + |o - p| ^ 2 := by
    calc |2 * p * (o - p) + (o - p) ^ 2| ≤ |2 * p * (o - p)| + |(o - p) ^ 2| := abs_add _ _
      _ = 2 * |p| * |o - p| + |o - p| ^ 2 := by
        rw [abs_mul, abs_mul, abs_pow]; norm_num
  have t2 : |p| * |o - p| ≤ |p| * (|p| / 2 ^ 53 + 1 / 2 ^ 1075) :=
    mul_le_mul_of_nonneg_left h hA0
  have t3 : |o - p| ^ 2 ≤ (|p| / 2 ^ 53 + 1 / 2 ^ 1075) ^ 2 :=
    pow_le_pow_left hB0 h 2
  have t4 : |p| ^ 2 = p ^ 2 := sq_abs p
  nlinarith [t1, t2, t3, t4, hA0, hA2]

/-- The scaled vector `(x*r, y*r)`, `r` the rounded reciprocal of the rounded
length `d`, has a squared length within `8.06 * 2^-53` of 1. -/
theorem scaled_alg (x y d r ox oy : ℝ) (hd0 : 0 ≤ d) (hr0 : 0 ≤ r)
    (hd1 : (1 - 402 / 100 / 2 ^ 53) * (x ^ 2 + y ^ 2) ≤ d ^ 2)
    (hd2 : d ^ 2 ≤ (1 + 402 / 100 / 2 ^ 53) * (x ^ 2 + y ^ 2))
    (hL : 1 / 2 ^ 1000 ≤ x ^ 2 + y ^ 2) (hH : x ^ 2 + y ^ 2 ≤ 2 ^ 1000)
    (hr : |r * d - 1| ≤ 1 / 2 ^ 53 + d / 2 ^ 1075)
    (hx : |ox - x * r| ≤ |x * r| / 2 ^ 53 + 1 / 2 ^ 1075)
    (hy : |oy - y * r| ≤ |y * r| / 2 ^ 53 + 1 / 2 ^ 1075) :
    1 - 806 / 100 / 2 ^ 53 ≤ ox ^ 2 + oy ^ 2 ∧ ox ^ 2 + oy ^ 2 ≤ 1 + 806 / 100 / 2 ^ 53 := by
  have hN : 0 < x ^ 2 + y ^ 2 := lt_of_lt_of_le (by norm_num) hL
  -- the length is at most 2^501
  have hdmax : d ≤ 2 ^ 501 := by
    by_contra hc
    have hc' : (2:ℝ) ^ 501 < d := lt_of_not_le hc
    have : (2:ℝ) ^ 501 * 2 ^ 501 < d * d :=
      mul_lt_mul'' hc' hc' (by norm_num) (by norm_num)
    nlinarith
  -- the product r*d is within 1.01 * 2^-53 of 1
  rw [abs_le] at hr
  have hP1 : 1 - 101 / 100 / 2 ^ 53 ≤ r * d := by linarith [hr.1]
  have hP2 : r * d ≤ 1 + 101 / 100 / 2 ^ 53 := by linarith [hr.2]
  have hP0 : 0 ≤ r * d := mul_nonneg hr0 hd0
  have hPsq1 : (1 - 101 / 100 / 2 ^ 53) ^ 2 ≤ (r * d) ^ 2 :=
    pow_le_pow_left (by norm_num) hP1 2
  have hPsq2 : (r * d) ^ 2 ≤ (1 + 101 / 100 / 2 ^ 53) ^ 2 :=
    pow_le_pow_left hP0 hP2 2
  -- w is the exact squared length of (x*r, y*r)
  have hw0 : 0 ≤ (x * r) ^ 2 + (y * r) ^ 2 := by positivity
  have hwd : ((x * r) ^ 2 + (y * r) ^ 2) * d ^ 2 = (x ^ 2 + y ^ 2) * (r * d) ^ 2 := by ring
  have hw1 : ((x * r) ^ 2 + (y * r) ^ 2) * (1 - 402 / 100 / 2 ^ 53) ≤
      (1 + 101 / 100 / 2 ^ 53) ^ 2 := by
    have a1 : ((x * r) ^ 2 + (y * r) ^ 2) * ((1 - 402 / 100 / 2 ^ 53) * (x ^ 2 + y ^ 2)) ≤
        ((x * r) ^ 2 + (y * r) ^ 2) * d ^ 2 := mul_le_mul_of_nonneg_left hd1 hw0
    have a2 : (x ^ 2 + y ^ 2) * (r * d) ^ 2 ≤ (x ^ 2 + y ^ 2) * (1 + 101 / 100 / 2 ^ 53) ^ 2 :=
      mul_le_mul_of_nonneg_left hPsq2 (le_of_lt hN)
    have a3 : (((x * r) ^ 2 + (y * r) ^ 2) * (1 - 402 / 100 / 2 ^ 53)) * (x ^ 2 + y ^ 2) ≤
        (1 + 101 / 100 / 2 ^ 53) ^ 2 * (x ^ 2 + y ^ 2) := by linarith
    exact le_of_mul_le_mul_right a3 hN
  have hw2 : (1 - 101 / 100 / 2 ^ 53) ^ 2 ≤
      ((x * r) ^ 2 + (y * r) ^ 2) * (1 + 402 / 100 / 2 ^ 53) := by
    have a1 : ((x * r) ^ 2 + (y * r) ^ 2) * d ^ 2 ≤
        ((x * r) ^ 2 + (y * r) ^ 2) * ((1 + 402 / 100 / 2 ^ 53) * (x ^ 2 + y ^ 2)) :=
      mul_le_mul_of_nonneg_left hd2 hw0
    have a2 : (x ^ 2 + y ^ 2) * (1 - 101 / 100 / 2 ^ 53) ^ 2 ≤ (x ^ 2 + y ^ 2) * (r * d) ^ 2 :=
      mul_le_mul_of_nonneg_left hPsq1 (le_of_lt hN)
    have a3 : (1 - 101 / 100 / 2 ^ 53) ^ 2 * (x ^ 2 + y ^ 2) ≤
        (((x * r) ^ 2 + (y * r) ^ 2) * (1 + 402 / 100 / 2 ^ 53)) * (x ^ 2 + y ^ 2) := by linarith
    exact le_of_mul_le_mul_right a3 hN
  have hwlo : 1 - 605 / 100 / 2 ^ 53 ≤ (x * r) ^ 2 + (y * r) ^ 2 := by linarith
  have hwhi : (x * r) ^ 2 + (y * r) ^ 2 ≤ 1 + 605 / 100 / 2 ^ 53 := by linarith
  have hp4 : (x * r) ^ 2 ≤ 4 := by linarith [sq_nonneg (y * r)]
  have hq4 : (y * r) ^ 2 ≤ 4 := by linarith [sq_nonneg (x * r)]
  have ex := sq_round_alg (x * r) ox hp4 hx
  have ey := sq_round_alg (y * r) oy hq4 hy
  rw [abs_le] at ex ey
  constructor <;> linarith [ex.1, ex.2, ey.1, ey.2]

/-- A non-negative number whose square is within `12.1 * 2^-53` of 1 is
within `2^-50` of 1. -/
theorem near_one_alg (Q m : ℝ) (hm : 0 ≤ m)
    (hQ1 : 1 - 806 / 100 / 2 ^ 53 ≤ Q) (hQ2 : Q ≤ 1 + 806 / 100 / 2 ^ 53)
    (h1 : (1 - 402 / 100 / 2 ^ 53) * Q ≤ m ^ 2) (h2 : m ^ 2 ≤ (1 + 402 / 100 / 2 ^ 53) * Q) :
    |m - 1| ≤ 1 / 2 ^ 50 := by
  have lo : 1 - 1209 / 100 / 2 ^ 53 ≤ m ^ 2 := by nlinarith
  have hi : m ^ 2 ≤ 1 + 1209 / 100 / 2 ^ 53 := by nlinarith
  rw [abs_le]
  constructor
  · by_contra hc
    have hc' : m < 1 - 1 / 2 ^ 50 := by linarith [lt_of_not_le hc]
    have : m ^ 2 < (1 - 1 / 2 ^ 50) ^ 2 := by
      have := mul_lt_mul'' hc' hc' hm hm
      nlinarith
    norm_num at this lo
    linarith
  · by_contra hc
    have hc' : 1 + 1 / 2 ^ 50 < m := by linarith [lt_of_not_le hc]
    have : (1 + 1 / 2 ^ 50) ^ 2 < m ^ 2 := by
      have := mul_lt_mul'' hc' hc' (by norm_num) (by norm_num)
      nlinarith
    norm_num at this hi
    linarith

namespace Double

/-- The computed length of a vector whose exact squared length lies between
`2^-1000` and `2^1000`: it is a positive finite number whose square is within
`4.02 * 2^-53` (relative) of the exact squared length. -/
theorem hypot_err (s t : Bool) (a b : Nat)
    (hL : 1 / 2 ^ 1000 ≤ ((a : ℝ) / 2 ^ 1074) ^ 2 + ((b : ℝ) / 2 ^ 1074) ^ 2)
    (hH : ((a : ℝ) / 2 ^ 1074) ^ 2 + ((b : ℝ) / 2 ^ 1074) ^ 2 ≤ 2 ^ 1000) :
    ∃ c, sqrt (add (mul (fin s a) (fin s a)) (mul (fin t b) (fin t b))) = fin false c ∧
      (1 - 402 / 100 / 2 ^ 53) * (((a : ℝ) / 2 ^ 1074) ^ 2 + ((b : ℝ) / 2 ^ 1074) ^ 2) ≤
        ((c : ℝ) / 2 ^ 1074) ^ 2 ∧
      ((c : ℝ) / 2 ^ 1074) ^ 2 ≤
        (1 + 402 / 100 / 2 ^ 53) * (((a : ℝ) / 2 ^ 1074) ^ 2 + ((b : ℝ) / 2 ^ 1074) ^ 2) := by
  generalize hx : (a : ℝ) / 2 ^ 1074 = x at hL hH ⊢
  generalize hy : (b : ℝ) / 2 ^ 1074 = y at hL hH ⊢
  have hx2 : 0 ≤ x ^ 2 := sq_nonneg x
  have hy2 : 0 ≤ y ^ 2 := sq_nonneg y
  obtain ⟨ca, hca, ea⟩ := mul_err s s a a (by rw [hx]; nlinarith)
  obtain ⟨cb, hcb, eb⟩ := mul_err t t b b (by rw [hy]; nlinarith)
  rw [hx, ← sq] at ea
  rw [hy, ← sq] at eb
  rw [Bool.xor_self] at hca hcb
  have ea' := abs_le.mp ea
  have eb' := abs_le.mp eb
  obtain ⟨cs, hcs, es⟩ := add_err ca cb (by
    have : (2 : ℝ) ^ 1000 * 4 < 2 ^ 1023 := by norm_num
    linarith [ea'.2, eb'.2])
  obtain ⟨hs1, hs2⟩ := sumsq_alg _ _ _ _ _ ea eb es hL
  have hcs0 : cs ≠ 0 := by
    intro e
    rw [e] at hs1
    norm_num at hs1
    linarith
  obtain ⟨c, hc, er1, er2⟩ := sqrt_err cs hcs0
  refine ⟨c, by rw [hca, hcb, hcs, hc], ?_⟩
  exact root_alg _ _ _ (by positivity) hs1 hs2 er1 er2

end Double

namespace Double

/-- Normalising a vector in binary64 arithmetic. For a vector `(±a, ±b)`
whose exact squared length lies between `2^-1000` and `2^1000`, the computed
length is a positive number, its computed reciprocal is a positive number,
and the vector scaled by that reciprocal has a computed length within `2^-50`
of 1. -/
theorem unit_vector_err (s t : Bool) (a b : Nat)
    (hL : 1 / 2 ^ 1000 ≤ ((a : ℝ) / 2 ^ 1074) ^ 2 + ((b : ℝ) / 2 ^ 1074) ^ 2)
    (hH : ((a : ℝ) / 2 ^ 1074) ^ 2 + ((b : ℝ) / 2 ^ 1074) ^ 2 ≤ 2 ^ 1000) :
    ∃ cd cr cm, cd ≠ 0 ∧ cr ≠ 0 ∧
      sqrt (add (mul (fin s a) (fin s a)) (mul (fin t b) (fin t b))) = fin false cd ∧
      div one (fin false cd) = fin false cr ∧
      sqrt (add
        (mul (mul (fin s a) (fin false cr)) (mul (fin s a) (fin false cr)))
        (mul (mul (fin t b) (fin false cr)) (mul (fin t b) (fin false cr)))) = fin false cm ∧
      |(cm : ℝ) / 2 ^ 1074 - 1| ≤ 1 / 2 ^ 50 := by
  obtain ⟨cd, hcd, hd1, hd2⟩ := hypot_err s t a b hL hH
  generalize hx : (a : ℝ) / 2 ^ 1074 = x at hL hH hd1 hd2
  generalize hy : (b : ℝ) / 2 ^ 1074 = y at hL hH hd1 hd2
  generalize hd : (cd : ℝ) / 2 ^ 1074 = d at hd1 hd2
  have hx0 : 0 ≤ x := by rw [← hx]; positivity
  have hy0 : 0 ≤ y := by rw [← hy]; positivity
  have hd0 : 0 ≤ d := by rw [← hd]; positivity
  have hx2 : 0 ≤ x ^ 2 := sq_nonneg x
  have hy2 : 0 ≤ y ^ 2 := sq_nonneg y
  -- the length lies between 2^-501 and 2^501
  have hdlo : 1 / 2 ^ 501 ≤ d := by
    by_contra hc
    have hc' : d < 1 / 2 ^ 501 := lt_of_not_le hc
    have h1 : d ^ 2 < (1 / 2 ^ 501) ^ 2 := pow_lt_pow_left hc' hd0 (by norm_num)
    have h2 : ((1 : ℝ) / 2 ^ 501) ^ 2 = 1 / 2 ^ 1002 := by norm_num
    rw [h2] at h1
    have h3 : (1 : ℝ) / 2 ^ 1002 ≤ (1 - 402 / 100 / 2 ^ 53) * (1 / 2 ^ 1000) := by norm_num
    have h4 : (1 - 402 / 100 / 2 ^ 53) * (1 / 2 ^ 1000) ≤
        (1 - 402 / 100 / 2 ^ 53) * (x ^ 2 + y ^ 2) :=
      mul_le_mul_of_nonneg_left hL (by norm_num)
    linarith
  have hdhi : d ≤ 2 ^ 501 := by
    by_contra hc
    have hc' : (2 : ℝ) ^ 501 < d := lt_of_not_le hc
    have h1 : ((2 : ℝ) ^ 501) ^ 2 < d ^ 2 := pow_lt_pow_left hc' (by positivity) (by norm_num)
    have h2 : ((2 : ℝ) ^ 501) ^ 2 = 2 ^ 1002 := by norm_num
    rw [h2] at h1
    have h3 : (1 + 402 / 100 / 2 ^ 53) * (2 : ℝ) ^ 1000 ≤ 2 ^ 1002 := by norm_num
    have h4 : (1 + 402 / 100 / 2 ^ 53) * (x ^ 2 + y ^ 2) ≤
        (1 + 402 / 100 / 2 ^ 53) * 2 ^ 1000 :=
      mul_le_mul_of_nonneg_left hH (by norm_num)
    linarith
  have hdpos : 0 < d := lt_of_lt_of_le (by norm_num) hdlo
  have hcd0 : cd ≠ 0 := by
    intro e
    rw [e] at hd
    norm_num at hd
    linarith
  -- the reciprocal
  obtain ⟨cr, hcr, hr⟩ := div_one_err cd (by
    rw [hd]
    have : (1 : ℝ) / 2 ^ 1023 < 1 / 2 ^ 501 := by norm_num
    linarith)
  rw [hd] at hr
  generalize hrr : (cr : ℝ) / 2 ^ 1074 = r at hr
  have hr0 : 0 ≤ r := by rw [← hrr]; positivity
  have hr' := abs_le.mp hr
  have hrd1 : 1 / 2 ≤ r * d := by
    have : d / 2 ^ 1075 ≤ 2 ^ 501 / 2 ^ 1075 := div_le_div_of_nonneg_right hdhi (by positivity)
    have h2 : (1 : ℝ) / 2 ^ 53 + 2 ^ 501 / 2 ^ 1075 ≤ 1 / 2 := by norm_num
    linarith [hr'.1]
  have hrd2 : r * d ≤ 2 := by
    have : d / 2 ^ 1075 ≤ 2 ^ 501 / 2 ^ 1075 := div_le_div_of_nonneg_right hdhi (by positivity)
    have h2 : (1 : ℝ) / 2 ^ 53 + 2 ^ 501 / 2 ^ 1075 ≤ 1 / 2 := by norm_num
    linarith [hr'.2]
  have hcr0 : cr ≠ 0 := by
    intro e
    rw [e] at hrr
    norm_num at hrr
    rw [← hrr] at hrd1
    norm_num at hrd1
  have hrhi : r ≤ 2 ^ 502 := by
    have h1 : r * (1 / 2 ^ 501) ≤ r * d := mul_le_mul_of_nonneg_left hdlo hr0
    have h2 : r * (1 / 2 ^ 501) ≤ 2 := le_trans h1 hrd2
    have h3 : r = r * (1 / 2 ^ 501) * 2 ^ 501 := by field_simp
    rw [h3]
    have h4 : r * (1 / 2 ^ 501) * 2 ^ 501 ≤ 2 * 2 ^ 501 :=
      mul_le_mul_of_nonneg_right h2 (by positivity)
    have h5 : (2 : ℝ) * 2 ^ 501 = 2 ^ 502 := by norm_num
    linarith
  have hxhi : x ≤ 2 ^ 500 := by
    have h1 : x ^ 2 ≤ (2 ^ 500) ^ 2 := by
      have : ((2 : ℝ) ^ 500) ^ 2 = 2 ^ 1000 := by norm_num
      rw [this]; linarith
    exact (abs_le_of_sq_le_sq' h1 (by positivity)).2
  have hyhi : y ≤ 2 ^ 500 := by
    have h1 : y ^ 2 ≤ (2 ^ 500) ^ 2 := by
      have : ((2 : ℝ) ^ 500) ^ 2 = 2 ^ 1000 := by norm_num
      rw [this]; linarith
    exact (abs_le_of_sq_le_sq' h1 (by positivity)).2
  have hprod : ∀ z : ℝ, 0 ≤ z → z ≤ 2 ^ 500 → z * r < 2 ^ 1023 := by
    intro z hz0 hz
    have h1 : z * r ≤ 2 ^ 500 * 2 ^ 502 := mul_le_mul hz hrhi hr0 (by positivity)
    have h2 : (2 : ℝ) ^ 500 * 2 ^ 502 < 2 ^ 1023 := by norm_num
    linarith
  -- the two scaled components
  obtain ⟨cox, hcox, eox⟩ := mul_err s false a cr (by rw [hx, hrr]; exact hprod x hx0 hxhi)
  obtain ⟨coy, hcoy, eoy⟩ := mul_err t false b cr (by rw [hy, hrr]; exact hprod y hy0 hyhi)
  rw [hx, hrr] at eox
  rw [hy, hrr] at eoy
  generalize hox : (cox : ℝ) / 2 ^ 1074 = ox at eox
  generalize hoy : (coy : ℝ) / 2 ^ 1074 = oy at eoy
  have eox' : |ox - x * r| ≤ |x * r| / 2 ^ 53 + 1 / 2 ^ 1075 := by
    rw [abs_of_nonneg (mul_nonneg hx0 hr0)]; exact eox
  have eoy' : |oy - y * r| ≤ |y * r| / 2 ^ 53 + 1 / 2 ^ 1075 := by
    rw [abs_of_nonneg (mul_nonneg hy0 hr0)]; exact eoy
  obtain ⟨hQ1, hQ2⟩ := scaled_alg x y d r ox oy hd0 hr0 hd1 hd2 hL hH hr eox' eoy'
  -- the length of the scaled vector
  obtain ⟨cm, hcm, hm1, hm2⟩ := hypot_err (xor s false) (xor t false) cox coy
    (by rw [hox, hoy]
        have : (1 : ℝ) / 2 ^ 1000 ≤ 1 - 806 / 100 / 2 ^ 53 := by norm_num
        linarith)
    (by rw [hox, hoy]
        have : (1 : ℝ) + 806 / 100 / 2 ^ 53 ≤ 2 ^ 1000 := by norm_num
        linarith)
  rw [hox, hoy] at hm1 hm2
  refine ⟨cd, cr, cm, hcd0, hcr0, hcd, hcr, by rw [hcox, hcoy, hcm], ?_⟩
  exact near_one_alg (ox ^ 2 + oy ^ 2) _ (by positivity) hQ1 hQ2 hm1 hm2

end Double

namespace Double

/-- The range hypothesis of `unit_vector_err`, from magnitudes in units. -/
theorem range_cast (a b : Nat) (hL : 2 ^ 1148 ≤ a ^ 2 + b ^ 2) (hH : a ^ 2 + b ^ 2 ≤ 2 ^ 3148) :
    1 / 2 ^ 1000 ≤ ((a : ℝ) / 2 ^ 1074) ^ 2 + ((b : ℝ) / 2 ^ 1074) ^ 2 ∧
    ((a : ℝ) / 2 ^ 1074) ^ 2 + ((b : ℝ) / 2 ^ 1074) ^ 2 ≤ 2 ^ 1000 := by
  have r1 : (((2 : ℕ) ^ 1148 : ℕ) : ℝ) ≤ ((a ^ 2 + b ^ 2 : ℕ) : ℝ) := Nat.cast_le.mpr hL
  have r2 : ((a ^ 2 + b ^ 2 : ℕ) : ℝ) ≤ (((2 : ℕ) ^ 3148 : ℕ) : ℝ) := Nat.cast_le.mpr hH
  rw [Nat.cast_pow, Nat.cast_add, Nat.cast_pow, Nat.cast_pow, Nat.cast_ofNat] at r1
  rw [Nat.cast_pow, Nat.cast_add, Nat.cast_pow, Nat.cast_pow, Nat.cast_ofNat] at r2
  have e : ((a : ℝ) / 2 ^ 1074) ^ 2 + ((b : ℝ) / 2 ^ 1074) ^ 2 =
      ((a : ℝ) ^ 2 + (b : ℝ) ^ 2) / 2 ^ 2148 := by
    rw [div_pow, div_pow]
    have : ((2 : ℝ) ^ 1074) ^ 2 = 2 ^ 2148 := by rw [← pow_mul]
    rw [this]; ring
  rw [e]
  constructor
  · rw [le_div_iff (by positivity)]
    have : (1 : ℝ) / 2 ^ 1000 * 2 ^ 2148 = 2 ^ 1148 := by
      rw [div_mul_eq_mul_div, one_mul, div_eq_iff (by positivity), ← pow_add]
    rw [this]; exact r1
  · rw [div_le_iff (by positivity), ← pow_add]
    exact r2

/-- Normalising a vector in binary64 arithmetic, in units: for finite `x`
and `y` whose exact squared length lies between `2^-1000` and `2^1000`, the
computed length is truthy, its reciprocal is a positive finite number, and
the computed length `m` of the scaled vector satisfies
`1 - 2^-50 ≤ m ≤ 1 + 2^-50`. -/
theorem unit_vector_tolerance (x y : Double) (fx : x.isFinite = true) (fy : y.isFinite = true)
    (hL : 2 ^ 1148 ≤ (units x).natAbs ^ 2 + (units y).natAbs ^ 2)
    (hH : (units x).natAbs ^ 2 + (units y).natAbs ^ 2 ≤ 2 ^ 3148) :
    (sqrt (add (mul x x) (mul y y))).truthy = true ∧
    (∃ n, n ≠ 0 ∧ div one (sqrt (add (mul x x) (mul y y))) = fin false n) ∧
    ∃ m, sqrt (add
        (mul (mul x (div one (sqrt (add (mul x x) (mul y y)))))
          (mul x (div one (sqrt (add (mul x x) (mul y y))))))
        (mul (mul y (div one (sqrt (add (mul x x) (mul y y)))))
          (mul y (div one (sqrt (add (mul x x) (mul y y))))))) = fin false m ∧
      unit * 2 ^ 50 ≤ m * 2 ^ 50 + unit ∧ m * 2 ^ 50 ≤ unit * 2 ^ 50 + unit := by
  cases x with
  | nan => simp [isFinite] at fx
  | inf s => simp [isFinite] at fx
  | fin s a =>
    cases y with
    | nan => simp [isFinite] at fy
    | inf t => simp [isFinite] at fy
    | fin t b =>
      rw [natAbs_units_fin, natAbs_units_fin] at hL hH
      obtain ⟨h1, h2⟩ := range_cast a b hL hH
      obtain ⟨cd, cr, cm, hcd0, hcr0, hcd, hcr, hcm, hm⟩ := unit_vector_err s t a b h1 h2
      rw [hcd, hcr]
      refine ⟨by simp [truthy, hcd0], ⟨cr, hcr0, rfl⟩, cm, hcm, ?_⟩
      rw [abs_le] at hm
      have hU : (0 : ℝ) < 2 ^ 1074 := by positivity
      have e1 : (2 : ℝ) ^ 1074 * 2 ^ 50 ≤ (cm : ℝ) * 2 ^ 50 + 2 ^ 1074 := by
        have := hm.1
        have h3 : ((cm : ℝ) / 2 ^ 1074 - 1) * (2 ^ 1074 * 2 ^ 50) =
            (cm : ℝ) * 2 ^ 50 - 2 ^ 1074 * 2 ^ 50 := by field_simp; ring
        have h4 : -((1 : ℝ) / 2 ^ 50) * (2 ^ 1074 * 2 ^ 50) = -(2 ^ 1074) := by field_simp
        have h5 := mul_le_mul_of_nonneg_right this (by positivity : (0 : ℝ) ≤ 2 ^ 1074 * 2 ^ 50)
        rw [h3, h4] at h5
        linarith
      have e2 : (cm : ℝ) * 2 ^ 50 ≤ 2 ^ 1074 * 2 ^ 50 + 2 ^ 1074 := by
        have := hm.2
        have h3 : ((cm : ℝ) / 2 ^ 1074 - 1) * (2 ^ 1074 * 2 ^ 50) =
            (cm : ℝ) * 2 ^ 50 - 2 ^ 1074 * 2 ^ 50 := by field_simp; ring
        have h4 : ((1 : ℝ) / 2 ^ 50) * (2 ^ 1074 * 2 ^ 50) = 2 ^ 1074 := by field_simp
        have h5 := mul_le_mul_of_nonneg_right this (by positivity : (0 : ℝ) ≤ 2 ^ 1074 * 2 ^ 50)
        rw [h3, h4] at h5
        linarith
      constructor
      · have : ((unit * 2 ^ 50 : ℕ) : ℝ) ≤ ((cm * 2 ^ 50 + unit : ℕ) : ℝ) := by
          rw [Nat.cast_add, Nat.cast_mul, Nat.cast_mul, Nat.cast_pow, Nat.cast_ofNat, unit_cast]
          exact e1
        exact Nat.cast_le.mp this
      · have : ((cm * 2 ^ 50 : ℕ) : ℝ) ≤ ((unit * 2 ^ 50 + unit : ℕ) : ℝ) := by
          rw [Nat.cast_add, Nat.cast_mul, Nat.cast_mul, Nat.cast_pow, Nat.cast_ofNat, unit_cast]
          exact e2
        exact Nat.cast_le.mp this

end Double

/-! ## Unit length up to rounding -/

open goog.vec.vec2d in
/-- C5, amended: when the two computed differences `q[i] - p[i]` are finite
and the exact length of the vector they form lies between `2^-500` and
`2^500` (its square between `2^-1000` and `2^1000`), `distance(p,q)` is a
non-zero number, `direction(p,q,out)` leaves in each component of `out` the
product of `q[i] - p[i]` with the reciprocal `1 / distance(p,q)`, a positive
finite number, and the magnitude `m` of `out` computed by `magnitude`
satisfies `1 - 2^-50 ≤ m ≤ 1 + 2^-50`. -/
theorem direction_unit_within_tolerance (h : Heap) (p q out : Ref)
    (fx : (Double.sub (h.read q 0) (h.read p 0)).isFinite = true)
    (fy : (Double.sub (h.read q 1) (h.read p 1)).isFinite = true)
    (hL : 2 ^ 1148 ≤ (Double.units (Double.sub (h.read q 0) (h.read p 0))).natAbs ^ 2 +
      (Double.units (Double.sub (h.read q 1) (h.read p 1))).natAbs ^ 2)
    (hH : (Double.units (Double.sub (h.read q 0) (h.read p 0))).natAbs ^ 2 +
      (Double.units (Double.sub (h.read q 1) (h.read p 1))).natAbs ^ 2 ≤ 2 ^ 3148) :
    (distance h p q).truthy = true ∧
    (∃ n, n ≠ 0 ∧ Double.div Double.one (distance h p q) = Double.fin false n) ∧
    (∀ i, (direction h p q out).1.read out i =
      Double.mul (Double.sub (h.read q i) (h.read p i))
        (Double.div Double.one (distance h p q))) ∧
    ∃ m, magnitude (direction h p q out).1 out = Double.fin false m ∧
      Double.unit * 2 ^ 50 ≤ m * 2 ^ 50 + Double.unit ∧
      m * 2 ^ 50 ≤ Double.unit * 2 ^ 50 + Double.unit := by
  obtain ⟨ht, hr, m, hm, hb⟩ := Double.unit_vector_tolerance _ _ fx fy hL hH
  rw [direction_length_eq_distance] at ht hr hm
  have hread : ∀ i, (direction h p q out).1.read out i =
      Double.mul (Double.sub (h.read q i) (h.read p i))
        (Double.div Double.one (distance h p q)) := by
    intro i
    rw [direction_read, ht]
    rfl
  refine ⟨ht, hr, hread, m, ?_, hb⟩
  unfold magnitude
  simp only [hread]
  exact hm

open goog.vec.vec2d in
/-- C7, amended: when the two components of `a` are finite and the exact
length of `a` lies between `2^-500` and `2^500` (its square between `2^-1000`
and `2^1000`), `magnitude(a)` is a non-zero number, `normalize(a,out)` leaves
in each component of `out` the product of `a[i]` with the reciprocal
`1 / magnitude(a)`, a positive finite number, whether or not `out` is `a`,
and the magnitude `m` of `out` computed by `magnitude` satisfies
`1 - 2^-50 ≤ m ≤ 1 + 2^-50`. -/
theorem normalize_unit_within_tolerance (h : Heap) (a out : Ref)
    (fx : (h.read a 0).isFinite = true) (fy : (h.read a 1).isFinite = true)
    (hL : 2 ^ 1148 ≤ (Double.units (h.read a 0)).natAbs ^ 2 +
      (Double.units (h.read a 1)).natAbs ^ 2)
    (hH : (Double.units (h.read a 0)).natAbs ^ 2 +
      (Double.units (h.read a 1)).natAbs ^ 2 ≤ 2 ^ 3148) :
    (magnitude h a).truthy = true ∧
    (∃ n, n ≠ 0 ∧ Double.div Double.one (magnitude h a) = Double.fin false n) ∧
    (∀ i, (goog.vec.vec2d.normalize h a out).1.read out i =
      Double.mul (h.read a i) (Double.div Double.one (magnitude h a))) ∧
    ∃ m, magnitude (goog.vec.vec2d.normalize h a out).1 out = Double.fin false m ∧
      Double.unit * 2 ^ 50 ≤ m * 2 ^ 50 + Double.unit ∧
      m * 2 ^ 50 ≤ Double.unit * 2 ^ 50 + Double.unit := by
  obtain ⟨ht, hr, m, hm, hb⟩ := Double.unit_vector_tolerance _ _ fx fy hL hH
  have e : Double.sqrt (Double.add (Double.mul (h.read a 0) (h.read a 0))
      (Double.mul (h.read a 1) (h.read a 1))) = magnitude h a := rfl
  rw [e] at ht hr hm
  refine ⟨ht, hr, normalize_read h a out, m, ?_, hb⟩
  unfold magnitude
  simp only [normalize_read]
  exact hm

open goog.vec.vec2d in
/-- C5, amended, from `(0,0)` to `(1,1)`: the computed magnitude of the
direction is within `2^-50` of 1. -/
theorem direction_unit_within_tolerance_witness :
    ∃ m, magnitude (direction Heap.diagonal 0 1 2).1 2 = Double.fin false m ∧
      Double.unit * 2 ^ 50 ≤ m * 2 ^ 50 + Double.unit ∧
      m * 2 ^ 50 ≤ Double.unit * 2 ^ 50 + Double.unit :=
  (direction_unit_within_tolerance Heap.diagonal 0 1 2 (by decide!) (by decide!)
    (by decide!) (by decide!)).2.2.2

open goog.vec.vec2d in
/-- C7, amended, at the vector `(1,1)`: the computed magnitude of the
normalised vector is within `2^-50` of 1. -/
theorem normalize_unit_within_tolerance_witness :
    ∃ m, magnitude (goog.vec.vec2d.normalize Heap.diagonal 1 2).1 2 = Double.fin false m ∧
      Double.unit * 2 ^ 50 ≤ m * 2 ^ 50 + Double.unit ∧
      m * 2 ^ 50 ≤ Double.unit * 2 ^ 50 + Double.unit :=
  (normalize_unit_within_tolerance Heap.diagonal 1 2 (by decide!) (by decide!)
    (by decide!) (by decide!)).2.2.2
